import Mathlib

/-!
Verification development for the block-based columnar storage manager and
its satellite kernels (pandas-derived code base).

The storage core (Block / BlockManager) is specified in `spec.md` but its
implementation is not part of the distributed source tree, so it is
modelled here directly from the specification text.  The mask-based
kernels (`kleene_or` / `kleene_and` / `kleene_xor`), the masked
accumulations (`_cum_func` and its wrappers) and the legacy attribute
shim of `pandas.core.internals` are translated from the source files.
-/

/-! # Definitions -/

/-! ## Data types

Closed tagged-variant dtype enumeration (spec §9, "Dynamic dtype dispatch …
represent dtype as a closed tagged-variant (enum)"). -/
inductive Dtype where
  | int8 | int16 | int32 | int64
  | uint8 | uint16 | uint32 | uint64
  | float32 | float64
  | boolean
  | object
  deriving DecidableEq, Repr

namespace Dtype

def isInteger : Dtype → Bool
  | .int8 | .int16 | .int32 | .int64
  | .uint8 | .uint16 | .uint32 | .uint64 => true
  | _ => false

def isFloat : Dtype → Bool
  | .float32 | .float64 => true
  | _ => false

end Dtype

/-! ## The storage core

Modelled from the spec: the distributed source tree contains only callers,
tests and deprecation shims of the storage core
(`pandas.core.internals.blocks` / `pandas.core.internals.managers` are not
present), so `Block`, `BlockManager` and their public operations
(`from_arrays`, `get_column`, `insert`, `delete`, `setitem`,
`concat_same_dtype`, `consolidate`, `take`, `copy`) are modelled from
spec.md §3–§4.  Element values are an abstract type `α`; a buffer is the
list of its columns, each column a list of row values. -/
inductive StructError where
  | indexError
  | keyError
  | lengthMismatch
  deriving DecidableEq, Repr

inductive ConcatError where
  | incompatibleDtype
  deriving DecidableEq, Repr

namespace Core

variable {α : Type}

/-- Modelled from the spec: a Block is a typed chunk of column data plus the
global column positions (`placement`) it supplies (spec §3). -/
structure Block (α : Type) where
  dtype : Dtype
  buffer : List (List α)
  placement : List Nat
  deriving DecidableEq, Repr

/-- The (global position, column) pairs supplied by a block. -/
def Block.pairs {α : Type} (b : Block α) : List (Nat × List α) :=
  b.placement.zip b.buffer

/-- Modelled from the spec: a BlockManager owns a collection of Blocks whose
placements partition `range nCols`, plus the two axes (row labels are kept
only as their count `nRows`) and the cached consolidation flag (spec §3). -/
structure BlockManager (α : Type) where
  nRows : Nat
  nCols : Nat
  blocks : List (Block α)
  consolidated : Bool
  deriving DecidableEq, Repr

/-- Single-column view out of a block: position lookup in the placement,
then the corresponding buffer column (spec §4.1 `get_values`/slice). -/
def Block.getCol (b : Block α) (c : Nat) : Option (List α) :=
  b.pairs.lookup c

/-- Modelled from the spec: `get_column` finds the owning Block of a column
position and returns the single-column view (spec §4.2). -/
def BlockManager.get_column (m : BlockManager α) (c : Nat) : Option (List α) :=
  m.blocks.findSome? (fun b => b.getCol c)

/-- Modelled from the spec: `from_arrays` groups the input arrays by dtype,
one Block per dtype group, placement assigned in input order (spec §4.2). -/
def from_arrays (arrays : List (Dtype × List α)) (nRows : Nat) :
    Except StructError (BlockManager α) :=
  if arrays.all (fun a => decide (a.2.length = nRows)) then
    .ok { nRows := nRows
          nCols := arrays.length
          blocks := ((arrays.map Prod.fst).dedup).map (fun d =>
            let group := arrays.enum.filter (fun ia => decide (ia.2.1 = d))
            { dtype := d
              buffer := group.map (fun ia => ia.2.2)
              placement := group.map (fun ia => ia.1) })
          consolidated := true }
  else .error .lengthMismatch

/-- Placement shift performed by `insert`: positions `≥ pos` move up one. -/
def shiftPos (pos p : Nat) : Nat := if pos ≤ p then p + 1 else p

/-- Modelled from the spec: `insert` shifts every existing placement integer
`≥ position` up by one and appends the new array as a one-column Block with
placement `{position}`; out-of-range positions fail with IndexError
(spec §4.2, §7). -/
def BlockManager.insert (m : BlockManager α) (pos : Nat) (d : Dtype) (arr : List α) :
    Except StructError (BlockManager α) :=
  if pos ≤ m.nCols ∧ arr.length = m.nRows then
    .ok { nRows := m.nRows
          nCols := m.nCols + 1
          blocks := m.blocks.map (fun b =>
              { b with placement := b.placement.map (shiftPos pos) })
            ++ [{ dtype := d, buffer := [arr], placement := [pos] }]
          consolidated := false }
  else .error .indexError

/-- Position renumbering performed by `delete`: each surviving position is
decremented by the number of deleted positions below it. -/
def adjustPos (del : List Nat) (p : Nat) : Nat :=
  p - (del.filter (fun x => decide (x < p))).length

/-- Block-level column deletion: keeps the (position, column) pairs whose
global position is not deleted, renumbering the survivors (spec §4.1/§4.2). -/
def Block.deleteCols (b : Block α) (del : List Nat) : Block α :=
  let kept := b.pairs.filter (fun pc => decide (pc.1 ∉ del))
  { dtype := b.dtype
    buffer := kept.map Prod.snd
    placement := kept.map (fun pc => adjustPos del pc.1) }

/-- Modelled from the spec: `delete` removes the given global positions from
every affected Block, drops Blocks that became empty and closes the
numbering gaps; nonexistent positions fail with KeyError (spec §4.2, §7). -/
def BlockManager.delete (m : BlockManager α) (del : List Nat) :
    Except StructError (BlockManager α) :=
  if del.Nodup ∧ ∀ p ∈ del, p < m.nCols then
    .ok { nRows := m.nRows
          nCols := m.nCols - del.length
          blocks := (m.blocks.map (fun b => b.deleteCols del)).filter
            (fun b => !b.placement.isEmpty)
          consolidated := false }
  else .error .keyError

/-- Replace the column at global position `pos` inside a block (same-dtype
setitem; the placement is unchanged). -/
def Block.replaceCol (b : Block α) (pos : Nat) (vals : List α) : Block α :=
  { b with buffer := b.pairs.map (fun pc => if pc.1 = pos then vals else pc.2) }

/-- Remove the column at global position `pos` from a block without
renumbering (used when setitem splits a block; spec §4.1 `setitem`). -/
def Block.dropCol (b : Block α) (pos : Nat) : Block α :=
  let kept := b.pairs.filter (fun pc => decide (pc.1 ≠ pos))
  { dtype := b.dtype
    buffer := kept.map Prod.snd
    placement := kept.map Prod.fst }

/-- Modelled from the spec: functional `setitem` replaces one column.  If the
new dtype matches the owning Block's dtype the column is replaced in place
(copy-on-write at the block level); otherwise the position is split off the
owning Block and re-wrapped as a new one-column Block of the new dtype
(spec §4.1 `setitem`, §4.2). -/
def BlockManager.setitem (m : BlockManager α) (pos : Nat) (d : Dtype) (vals : List α) :
    Except StructError (BlockManager α) :=
  if pos < m.nCols ∧ vals.length = m.nRows then
    .ok { nRows := m.nRows
          nCols := m.nCols
          blocks :=
            ((m.blocks.map (fun b =>
                if pos ∈ b.placement then
                  if b.dtype = d then b.replaceCol pos vals else b.dropCol pos
                else b)).filter (fun b => !b.placement.isEmpty))
            ++ (if m.blocks.any (fun b =>
                  decide (pos ∈ b.placement) && !decide (b.dtype = d))
                then [{ dtype := d, buffer := [vals], placement := [pos] }]
                else [])
          consolidated := false }
  else .error .indexError

/-- Modelled from the spec: `concat_same_dtype` concatenates blocks into one;
it fails with `IncompatibleDtypeError` whenever the dtypes are not all
identical, and never coerces (spec §4.1, §4.2 failure semantics). -/
def concat_same_dtype (blocks : List (Block α)) : Except ConcatError (Block α) :=
  match blocks with
  | [] => .error .incompatibleDtype
  | b :: rest =>
    if rest.all (fun b' => decide (b'.dtype = b.dtype)) then
      .ok { dtype := b.dtype
            buffer := (b :: rest).flatMap Block.buffer
            placement := (b :: rest).flatMap Block.placement }
    else .error .incompatibleDtype

/-- Sort (position, column) pairs by position — the canonical order used by
consolidation. -/
def sortPairs (ps : List (Nat × List α)) : List (Nat × List α) :=
  List.insertionSort (fun p q => p.1 ≤ q.1) ps

/-- One merged block of `consolidate`: the same-dtype group is concatenated
via `concat_same_dtype` and the merged placements are recomputed into
canonical sorted order (spec §4.2).  The error branch is unreachable
because a dtype group is never empty and is same-dtyped by construction. -/
def consBlock (m : BlockManager α) (d : Dtype) : Block α :=
  match concat_same_dtype (m.blocks.filter (fun b => decide (b.dtype = d))) with
  | .ok big =>
    let ps := sortPairs big.pairs
    { dtype := big.dtype, buffer := ps.map Prod.snd, placement := ps.map Prod.fst }
  | .error _ => { dtype := d, buffer := [], placement := [] }

/-- Modelled from the spec: `consolidate` groups Blocks by dtype, concatenates
each group via `concat_same_dtype`, recomputes the placements of each merged
Block into canonical sorted order, and marks the consolidation flag
(spec §4.2). -/
def BlockManager.consolidate (m : BlockManager α) : BlockManager α :=
  { nRows := m.nRows
    nCols := m.nCols
    blocks := ((m.blocks.map Block.dtype).dedup).map (consBlock m)
    consolidated := true }

/-- Modelled from the spec: rows-axis `take` delegates to each Block, which
reorders/duplicates/subsets its rows by position (spec §4.2). -/
def BlockManager.take [Inhabited α] (m : BlockManager α) (P : List Nat) :
    Except StructError (BlockManager α) :=
  if P.all (fun p => decide (p < m.nRows)) then
    .ok { nRows := P.length
          nCols := m.nCols
          blocks := m.blocks.map (fun b =>
            { b with
              buffer := b.buffer.map (fun col => P.map (fun i => col.getD i default)) })
          consolidated := m.consolidated }
  else .error .indexError

/-- Well-formedness (the spec §3 BlockManager invariant): every block's
buffer is aligned with its placement, every column holds `nRows` values,
and the placements partition `range nCols`. -/
def BlockManager.wf (m : BlockManager α) : Prop :=
  (∀ b ∈ m.blocks, b.buffer.length = b.placement.length) ∧
  (∀ b ∈ m.blocks, ∀ col ∈ b.buffer, col.length = m.nRows) ∧
  (m.blocks.flatMap Block.placement).Perm (List.range m.nCols)

/-- All (global position, column) pairs of a manager. -/
def allPairs (m : BlockManager α) : List (Nat × List α) :=
  m.blocks.flatMap Block.pairs

/-- All occupied global column positions of a manager. -/
def keys (m : BlockManager α) : List Nat :=
  m.blocks.flatMap Block.placement

/-- The same-dtype group of blocks consolidation works on. -/
def dtypeGroup (m : BlockManager α) (d : Dtype) : List (Block α) :=
  m.blocks.filter (fun b => decide (b.dtype = d))

/-- The single merged block consolidation produces for one dtype. -/
def groupBlock (m : BlockManager α) (d : Dtype) : Block α :=
  let ps := sortPairs ((dtypeGroup m d).flatMap Block.pairs)
  { dtype := d, buffer := ps.map Prod.snd, placement := ps.map Prod.fst }

/-- The partition invariant of spec §3/§8: the placements of all blocks are a
permutation of `0 … nCols-1` (union is everything, no duplicates), their
sizes sum to `nCols`, and every column holds `nRows` values. -/
def PartitionInv (m : BlockManager α) : Prop :=
  (m.blocks.flatMap Block.placement).Perm (List.range m.nCols) ∧
  ((m.blocks.map (fun b => b.placement.length)).sum = m.nCols) ∧
  (∀ b ∈ m.blocks, ∀ col ∈ b.buffer, col.length = m.nRows)

/-- Managers reachable through the public operations of spec §4.2:
construction by `from_arrays` followed by any sequence of `insert`,
`delete`, `setitem`, `consolidate` and `take`. -/
inductive Reachable {α : Type} [Inhabited α] : BlockManager α → Prop where
  | of_from_arrays {arrays : List (Dtype × List α)} {nRows : Nat} {m : BlockManager α} :
      from_arrays arrays nRows = .ok m → Reachable m
  | of_insert {m m' : BlockManager α} {pos : Nat} {d : Dtype} {arr : List α} :
      Reachable m → m.insert pos d arr = .ok m' → Reachable m'
  | of_delete {m m' : BlockManager α} {del : List Nat} :
      Reachable m → m.delete del = .ok m' → Reachable m'
  | of_setitem {m m' : BlockManager α} {pos : Nat} {d : Dtype} {vals : List α} :
      Reachable m → m.setitem pos d vals = .ok m' → Reachable m'
  | of_consolidate {m : BlockManager α} :
      Reachable m → Reachable m.consolidate
  | of_take {m m' : BlockManager α} {P : List Nat} :
      Reachable m → m.take P = .ok m' → Reachable m'

instance instIsTotalPairLE : IsTotal (Nat × List α) (fun p q => p.1 ≤ q.1) :=
  ⟨fun a b => Nat.le_total a.1 b.1⟩

instance instIsTransPairLE : IsTrans (Nat × List α) (fun p q => p.1 ≤ q.1) :=
  ⟨fun _ _ _ hab hbc => Nat.le_trans hab hbc⟩

end Core

/-! ## Dtype promotion

Modelled from the spec (§6 "Dtype-promotion rules") and the expectations of
`pandas/tests/dtypes/cast/test_promote.py` (the implementation
`pandas.core.dtypes.cast.maybe_promote` is not part of the source tree). -/
/-- A fill value handed to `maybe_promote`: an integer scalar, a finite float
scalar, `np.nan`, or `None`. -/
inductive Fill where
  | intVal (n : Int)
  | floatVal (q : Rat)
  | nanVal
  | noneVal
  deriving DecidableEq, Repr

/-- The missing-value marker `maybe_promote` reports for the array case:
`np.nan`, or no marker (integer dtypes cannot hold a NaN). -/
inductive NaMarker where
  | nan
  | noMarker
  deriving DecidableEq, Repr

/-- Modelled from the spec: promotion of a dtype against a fill value.
Filling an integer dtype with a float always upcasts to float64 with
`np.nan` as the array marker; filling with a missing value (`np.nan` or
`None`) casts integers to float64 as well; floats keep their dtype; other
combinations fall back to object. -/
def maybe_promote (d : Dtype) (f : Fill) : Dtype × NaMarker :=
  match f with
  | .intVal _ =>
    if d.isInteger then (d, .noMarker)
    else if d.isFloat then (d, .nan)
    else (.object, .nan)
  | .floatVal _ =>
    if d.isInteger then (.float64, .nan)
    else if d.isFloat then (d, .nan)
    else (.object, .nan)
  | .nanVal =>
    if d.isInteger then (.float64, .nan)
    else if d.isFloat then (d, .nan)
    else (.object, .nan)
  | .noneVal =>
    if d.isInteger then (.float64, .nan)
    else if d.isFloat then (d, .nan)
    else (.object, .nan)

/-- Elementwise binary operations routed through the promotion policy. -/
inductive BinOp where
  | add
  | sub
  | mul
  deriving DecidableEq, Repr

/-- Modelled from the spec §6: `promote(dtype_a, operation, dtype_b)` —
int+int→int, int+float→float, float+float→float, incompatible→object. -/
def promote (a : Dtype) (_op : BinOp) (b : Dtype) : Dtype :=
  if a = b then a
  else if a.isInteger && b.isInteger then .int64
  else if (a.isInteger && b.isFloat) || (a.isFloat && b.isInteger) then .float64
  else if a.isFloat && b.isFloat then .float64
  else .object

namespace Core

variable {α : Type}

/-- Modelled from the spec §4.1: `Block.apply` for a binary elementwise
kernel against an operand of dtype `otherDtype`: the kernel output is
re-wrapped as a block whose dtype is given by the promotion rules and whose
placement is unchanged. -/
def Block.applyBin (b : Block α) (op : BinOp) (otherDtype : Dtype)
    (kernel : List α → List α) : Block α :=
  { dtype := promote b.dtype op otherDtype
    buffer := b.buffer.map kernel
    placement := b.placement }

end Core

namespace Mem

variable {α : Type}

/-! ## The buffer store model

Modelled from the spec §3/§5/§9: buffer identity and aliasing cannot be seen
in the pure value model, so insertion locality and copy-on-write safety are
settled on a second model in which Blocks hold buffer *identifiers* into an
explicit store, plus the may-share-storage flag.  A buffer is the list of
its columns. -/
/-- A buffer: the list of columns of one block. -/
abbrev Buffer (α : Type) := List (List α)

/-- The physical store: buffers addressed by their allocation index. -/
abbrev Store (α : Type) := List (Buffer α)

/-- Modelled from the spec: a Block referencing its buffer by identity, with
the explicit may-share-storage flag of spec §3/§9. -/
structure Block where
  dtype : Dtype
  bufId : Nat
  mayShare : Bool
  placement : List Nat
  deriving DecidableEq, Repr

/-- Modelled from the spec: a manager in the store model; the column axis is
kept as its list of labels. -/
structure Manager where
  nRows : Nat
  colIndex : List String
  blocks : List Block
  deriving DecidableEq, Repr

def Manager.nCols (m : Manager) : Nat := m.colIndex.length

/-- The single-column view of a block read through the store. -/
def Block.getCol (store : Store α) (b : Block) (c : Nat) : Option (List α) :=
  ((b.placement.zip (store.getD b.bufId [])).lookup c)

/-- What a manager observes at a column position, reading through the store. -/
def Manager.get_column (store : Store α) (m : Manager) (c : Nat) : Option (List α) :=
  m.blocks.findSome? (fun b => b.getCol store c)

/-- Modelled from the spec §4.2: `insert` shifts the placement integers `≥
position` of every existing Block up by one, allocates the new array as a
fresh one-column buffer, wraps it as a new Block with placement
`{position}`, and updates the column index.  No existing buffer is touched. -/
def insert (store : Store α) (m : Manager) (pos : Nat) (label : String)
    (d : Dtype) (arr : List α) : Except StructError (Store α × Manager) :=
  if pos ≤ m.nCols ∧ arr.length = m.nRows then
    .ok (store ++ [[arr]],
      { nRows := m.nRows
        colIndex := m.colIndex.insertIdx pos label
        blocks := m.blocks.map (fun b =>
            { b with placement := b.placement.map (fun p => if pos ≤ p then p + 1 else p) })
          ++ [{ dtype := d, bufId := store.length, mayShare := false, placement := [pos] }] })
  else .error .indexError

/-- Modelled from the spec §4.1: `copy(deep=False)` produces a manager whose
Blocks alias the same buffers, marking the may-share-storage flag on both
the original and the copy. -/
def Manager.copy_shallow (m : Manager) : Manager × Manager :=
  let shared : Manager :=
    { m with blocks := m.blocks.map (fun b => { b with mayShare := true }) }
  (shared, shared)

/-- In-place setitem over the block list: find the owning block, and either
mutate its buffer in the store directly (exclusively owned) or, when the
may-share-storage flag is set, first perform the defensive deep copy into a
freshly allocated buffer and mutate that (spec §5). -/
def setitemBlocks (store : Store α) (blocks : List Block) (pos : Nat)
    (vals : List α) : Option (Store α × List Block) :=
  match blocks with
  | [] => none
  | b :: rest =>
    if pos ∈ b.placement then
      let li := b.placement.indexOf pos
      let buf := store.getD b.bufId []
      if b.mayShare then
        some (store ++ [buf.set li vals],
          { b with bufId := store.length, mayShare := false } :: rest)
      else
        some (store.set b.bufId (buf.set li vals), b :: rest)
    else
      (setitemBlocks store rest pos vals).map (fun sb => (sb.1, b :: sb.2))

/-- Modelled from the spec §5: the in-place-style setitem — the destructive
mutation API guarded by the check-then-copy discipline. -/
def setitem_inplace (store : Store α) (m : Manager) (pos : Nat)
    (vals : List α) : Except StructError (Store α × Manager) :=
  match setitemBlocks store m.blocks pos vals with
  | none => .error .keyError
  | some sb => .ok (sb.1, { m with blocks := sb.2 })

end Mem

namespace Internals

/-! ## Legacy attribute shim of `pandas.core.internals`

Translation of `pandas/core/internals/__init__.py` (module body imports plus
the module-level `__getattr__` fallback, GH#55139 / GH#33892). -/
/-- Outcome of attribute access on the module: the fully qualified object
returned (with the flag recording whether a DeprecationWarning was
emitted), or an AttributeError. -/
inductive AttrResult where
  | ok (warned : Bool) (qualname : String)
  | attributeError (msg : String)
  deriving DecidableEq, Repr

/-- Names bound by the module body of `pandas/core/internals/__init__.py`
(its import statements and `__all__`); attribute access on these never
reaches `__getattr__`. -/
def moduleBindings : List (String × String) :=
  [("make_block", "pandas.core.internals.api.make_block"),
   ("ArrayManager", "pandas.core.internals.array_manager.ArrayManager"),
   ("SingleArrayManager", "pandas.core.internals.array_manager.SingleArrayManager"),
   ("DataManager", "pandas.core.internals.base.DataManager"),
   ("SingleDataManager", "pandas.core.internals.base.SingleDataManager"),
   ("concatenate_managers", "pandas.core.internals.concat.concatenate_managers"),
   ("BlockManager", "pandas.core.internals.managers.BlockManager"),
   ("SingleBlockManager", "pandas.core.internals.managers.SingleBlockManager"),
   ("__all__", "pandas.core.internals.__all__")]

/-- The deprecated legacy names served by the shim together with the legacy
object each one returns. -/
def deprecatedNames : List (String × String) :=
  [("create_block_manager_from_blocks",
    "pandas.core.internals.managers.create_block_manager_from_blocks"),
   ("NumericBlock", "pandas.core.internals.blocks.NumericBlock"),
   ("ObjectBlock", "pandas.core.internals.blocks.ObjectBlock"),
   ("Block", "pandas.core.internals.blocks.Block"),
   ("ExtensionBlock", "pandas.core.internals.blocks.ExtensionBlock"),
   ("DatetimeTZBlock", "pandas.core.internals.blocks.DatetimeTZBlock")]

/-- Translation of the module-level `__getattr__`: warn and return the
legacy object for `create_block_manager_from_blocks` and the five legacy
block classes, raise AttributeError for every other name. -/
def dunder_getattr (name : String) : AttrResult :=
  if name = "create_block_manager_from_blocks" then
    .ok true "pandas.core.internals.managers.create_block_manager_from_blocks"
  else if name ∈ ["NumericBlock", "ObjectBlock", "Block", "ExtensionBlock",
      "DatetimeTZBlock"] then
    (if name = "NumericBlock" then
      .ok true "pandas.core.internals.blocks.NumericBlock"
    else if name = "DatetimeTZBlock" then
      .ok true "pandas.core.internals.blocks.DatetimeTZBlock"
    else if name = "ExtensionBlock" then
      .ok true "pandas.core.internals.blocks.ExtensionBlock"
    else if name = "Block" then
      .ok true "pandas.core.internals.blocks.Block"
    else
      .ok true "pandas.core.internals.blocks.ObjectBlock")
  else
    .attributeError ("module pandas.core.internals has no attribute " ++ name)

/-- Python attribute access on the module: the module globals are consulted
first, the module-level `__getattr__` only for names not found there. -/
def module_getattr (name : String) : AttrResult :=
  match moduleBindings.lookup name with
  | some qual => .ok false qual
  | none => dunder_getattr name

end Internals

namespace MaskedAccum

/-! ## Masked accumulations

Translation of `pandas/core/array_algos/masked_accumulations.py`.  The
dtypes covered are the integer/bool branches of `_cum_func` (`np.iinfo`;
bools use `np.iinfo(np.uint8)`); values are exact integers. -/
/-- The dtypes routed through the `np.iinfo` branches of `_cum_func`. -/
inductive AccDtype where
  | i8 | i16 | i32 | i64
  | u8 | u16 | u32 | u64
  | boolean
  deriving DecidableEq, Repr

/-- `dtype_info.min` (bools use `np.iinfo(np.uint8).min = 0`). -/
def iinfoMin : AccDtype → Int
  | .i8 => -128
  | .i16 => -32768
  | .i32 => -2147483648
  | .i64 => -9223372036854775808
  | .u8 => 0
  | .u16 => 0
  | .u32 => 0
  | .u64 => 0
  | .boolean => 0

/-- `dtype_info.max` (bools use `np.iinfo(np.uint8).max = 255`). -/
def iinfoMax : AccDtype → Int
  | .i8 => 127
  | .i16 => 32767
  | .i32 => 2147483647
  | .i64 => 9223372036854775807
  | .u8 => 255
  | .u16 => 65535
  | .u32 => 4294967295
  | .u64 => 18446744073709551615
  | .boolean => 255

/-- The four numpy accumulators `_cum_func` accepts. -/
inductive AccFunc where
  | npCumsum
  | npCumprod
  | npMaxAccumulate
  | npMinAccumulate
  deriving DecidableEq, Repr

/-- The `fill_value` table of `_cum_func`: `np.cumprod ↦ 1`,
`np.maximum.accumulate ↦ dtype_info.min`, `np.cumsum ↦ 0`,
`np.minimum.accumulate ↦ dtype_info.max`. -/
def fillValue (f : AccFunc) (d : AccDtype) : Int :=
  match f with
  | .npCumprod => 1
  | .npMaxAccumulate => iinfoMin d
  | .npCumsum => 0
  | .npMinAccumulate => iinfoMax d

/-- `values[mask] = fill_value` — the write into the caller's array. -/
def writeMasked (values : List Int) (mask : List Bool) (fill : Int) : List Int :=
  List.zipWith (fun v m => if m then fill else v) values mask

/-- Running accumulation with a binary operation (numpy accumulate). -/
def accumFrom {γ : Type} (g : γ → γ → γ) : γ → List γ → List γ
  | _, [] => []
  | acc, v :: rest => (g acc v) :: accumFrom g (g acc v) rest

def accumulateBy {γ : Type} (g : γ → γ → γ) : List γ → List γ
  | [] => []
  | v :: rest => v :: accumFrom g v rest

/-- The numpy accumulator on exact integers. -/
def applyFunc : AccFunc → List Int → List Int
  | .npCumsum => accumulateBy (· + ·)
  | .npCumprod => accumulateBy (· * ·)
  | .npMaxAccumulate => accumulateBy max
  | .npMinAccumulate => accumulateBy min

/-- Translation of `_cum_func` with the buffer side effect made explicit:
the first component is the caller's `values` array as left after the call
(line `values[mask] = fill_value` mutates it in place before accumulating;
`func(values)` allocates a fresh array), the second component the returned
`(values, mask)` pair. -/
def _cum_func (func : AccFunc) (d : AccDtype) (values : List Int)
    (mask : List Bool) (skipna : Bool) : List Int × (List Int × List Bool) :=
  let fill := fillValue func d
  let values1 := writeMasked values mask fill
  let mask1 := if skipna then mask else accumulateBy (· || ·) mask
  (values1, (applyFunc func values1, mask1))

/-- Translation of `cumsum`. -/
def cumsum (d : AccDtype) (values : List Int) (mask : List Bool)
    (skipna : Bool) : List Int × (List Int × List Bool) :=
  _cum_func .npCumsum d values mask skipna

/-- Translation of `cumprod`. -/
def cumprod (d : AccDtype) (values : List Int) (mask : List Bool)
    (skipna : Bool) : List Int × (List Int × List Bool) :=
  _cum_func .npCumprod d values mask skipna

/-- Translation of `cummin` (`np.minimum.accumulate`). -/
def cummin (d : AccDtype) (values : List Int) (mask : List Bool)
    (skipna : Bool) : List Int × (List Int × List Bool) :=
  _cum_func .npMinAccumulate d values mask skipna

/-- Translation of `cummax` (`np.maximum.accumulate`). -/
def cummax (d : AccDtype) (values : List Int) (mask : List Bool)
    (skipna : Bool) : List Int × (List Int × List Bool) :=
  _cum_func .npMaxAccumulate d values mask skipna

end MaskedAccum

namespace MaskOps

/-! ## Kleene-logic kernels

Translation of `pandas/core/ops/mask_ops.py` (`kleene_or`, `kleene_xor`,
`kleene_and`).  Operands are bool scalars, the NA scalar, or bool arrays; a
mask of `none` marks the scalar side.  The source guarantees, by swapping
the arguments once, that the left operand comes from an array; both masks
`None` would make that swap recurse forever, modelled as a `diverge`
error.  Float NaN scalars (rejected by `raise_for_nan`) are outside this
boolean domain. -/
/-- An operand of the Kleene kernels. -/
inductive KVal where
  | scalar (b : Bool)
  | na
  | arr (vs : List Bool)
  deriving DecidableEq, Repr

/-- Kernel failures: the `assert isinstance(left, np.ndarray)`, a TypeError
from ill-typed numpy logic, and the unbounded swap recursion when both
masks are None. -/
inductive KErr where
  | assertionFailed
  | typeError
  | diverge
  deriving DecidableEq, Repr

def lnot (l : List Bool) : List Bool := l.map (!·)

def land (l r : List Bool) : List Bool := List.zipWith (· && ·) l r

def lor (l r : List Bool) : List Bool := List.zipWith (· || ·) l r

/-- Body of `kleene_or` after the one argument swap. -/
def kleene_or_core (left right : KVal) (left_mask right_mask : Option (List Bool)) :
    Except KErr (List Bool × List Bool) :=
  match left_mask with
  | none => .error .diverge
  | some lm =>
    match left with
    | .arr lvs =>
      let result : List Bool :=
        match right with
        | .na => lvs
        | .scalar b => lvs.map (· || b)
        | .arr rvs => lor lvs rvs
      match right_mask with
      | some rm =>
        match right with
        | .arr rvs =>
          let left_false := lnot (lor lvs lm)
          let right_false := lnot (lor rvs rm)
          .ok (result,
            lor (lor (land left_false rm) (land right_false lm)) (land lm rm))
        | .scalar b =>
          let left_false := lnot (lor lvs lm)
          let right_false := rm.map (fun mv => !(b || mv))
          .ok (result,
            lor (lor (land left_false rm) (land right_false lm)) (land lm rm))
        | .na => .error .typeError
      | none =>
        match right with
        | .scalar true => .ok (result, lm.map (fun _ => false))
        | .na => .ok (result, lor (land (lnot lvs) (lnot lm)) lm)
        | _ => .ok (result, lm)
    | _ => .error .assertionFailed

/-- Translation of `kleene_or`: swap once so that `left`/`left_mask` come
from an array, then run the body. -/
def kleene_or (left right : KVal) (left_mask right_mask : Option (List Bool)) :
    Except KErr (List Bool × List Bool) :=
  match left_mask with
  | none => kleene_or_core right left right_mask left_mask
  | some _ => kleene_or_core left right left_mask right_mask

/-- Body of `kleene_xor` after the one argument swap. -/
def kleene_xor_core (left right : KVal) (left_mask right_mask : Option (List Bool)) :
    Except KErr (List Bool × List Bool) :=
  match left_mask with
  | none => .error .diverge
  | some lm =>
    match left with
    | .arr lvs =>
      let result : List Bool :=
        match right with
        | .na => lvs.map (fun _ => false)
        | .scalar b => lvs.map (fun v => Bool.xor v b)
        | .arr rvs => List.zipWith Bool.xor lvs rvs
      match right_mask with
      | none =>
        match right with
        | .na => .ok (result, lm.map (fun _ => true))
        | _ => .ok (result, lm)
      | some rm => .ok (result, lor lm rm)
    | _ => .error .typeError

/-- Translation of `kleene_xor`. -/
def kleene_xor (left right : KVal) (left_mask right_mask : Option (List Bool)) :
    Except KErr (List Bool × List Bool) :=
  match left_mask with
  | none => kleene_xor_core right left right_mask left_mask
  | some _ => kleene_xor_core left right left_mask right_mask

/-- Body of `kleene_and` after the one argument swap. -/
def kleene_and_core (left right : KVal) (left_mask right_mask : Option (List Bool)) :
    Except KErr (List Bool × List Bool) :=
  match left_mask with
  | none => .error .diverge
  | some lm =>
    match left with
    | .arr lvs =>
      let result : List Bool :=
        match right with
        | .na => lvs.map (fun _ => false)
        | .scalar b => lvs.map (· && b)
        | .arr rvs => land lvs rvs
      match right_mask with
      | none =>
        match right with
        | .na => .ok (result, lor (land lvs (lnot lm)) lm)
        | .scalar false => .ok (result, lm.map (fun _ => false))
        | _ => .ok (result, lm)
      | some rm =>
        match right with
        | .arr rvs =>
          let left_false := lnot (lor lvs lm)
          let right_false := lnot (lor rvs rm)
          .ok (result, lor (land lm (lnot right_false)) (land rm (lnot left_false)))
        | .scalar b =>
          let left_false := lnot (lor lvs lm)
          let right_false := rm.map (fun mv => !(b || mv))
          .ok (result, lor (land lm (lnot right_false)) (land rm (lnot left_false)))
        | .na => .error .typeError
    | _ => .error .assertionFailed

/-- Translation of `kleene_and`. -/
def kleene_and (left right : KVal) (left_mask right_mask : Option (List Bool)) :
    Except KErr (List Bool × List Bool) :=
  match left_mask with
  | none => kleene_and_core right left right_mask left_mask
  | some _ => kleene_and_core left right left_mask right_mask

end MaskOps

/-- Decidable equality for `Except`, used to evaluate the operations of the
model on concrete inputs. -/
instance {ε σ : Type _} [DecidableEq ε] [DecidableEq σ] : DecidableEq (Except ε σ) :=
  fun a b =>
    match a, b with
    | .ok x, .ok y =>
      if h : x = y then .isTrue (by rw [h])
      else .isFalse (fun he => h (by injection he))
    | .error x, .error y =>
      if h : x = y then .isTrue (by rw [h])
      else .isFalse (fun he => h (by injection he))
    | .ok _, .error _ => .isFalse (fun he => Except.noConfusion he)
    | .error _, .ok _ => .isFalse (fun he => Except.noConfusion he)

/-- Well-formedness is decidable on concrete managers. -/
instance {α : Type} [DecidableEq α] (m : Core.BlockManager α) : Decidable m.wf := by
  unfold Core.BlockManager.wf
  infer_instance

/-! ## Concrete instances used by the witnesses -/
/-- Spec §8 concrete scenario 1: int64, float64, int64 input columns. -/
def exArrays : List (Dtype × List Int) :=
  [(.int64, [1, 2, 3]), (.float64, [10, 20, 30]), (.int64, [4, 5, 6])]

/-- The manager `from_arrays` builds from `exArrays`. -/
def exManager : Core.BlockManager Int :=
  { nRows := 3
    nCols := 3
    blocks := [{ dtype := .float64, buffer := [[10, 20, 30]], placement := [1] },
               { dtype := .int64, buffer := [[1, 2, 3], [4, 5, 6]], placement := [0, 2] }]
    consolidated := true }

/-- `exManager.take [2, 0, 1, 0]`. -/
def exTaken : Core.BlockManager Int :=
  { nRows := 4
    nCols := 3
    blocks := [{ dtype := .float64, buffer := [[30, 10, 20, 10]], placement := [1] },
               { dtype := .int64, buffer := [[3, 1, 2, 1], [6, 4, 5, 4]], placement := [0, 2] }]
    consolidated := true }

/-- A one-column int64 block. -/
def exBlockInt : Core.Block Int :=
  { dtype := .int64, buffer := [[1, 2, 3]], placement := [0] }

/-- A one-column float64 block. -/
def exBlockFloat : Core.Block Int :=
  { dtype := .float64, buffer := [[4, 5, 6]], placement := [1] }

/-- A one-buffer store. -/
def exStore : Mem.Store Int := [[[1, 2]]]

/-- A one-block manager over `exStore`. -/
def exMem : Mem.Manager :=
  { nRows := 2
    colIndex := ["a"]
    blocks := [{ dtype := .int64, bufId := 0, mayShare := false, placement := [0] }] }

/-- `exMem` after `copy_shallow` marked the may-share-storage flag. -/
def exShared : Mem.Manager :=
  { nRows := 2
    colIndex := ["a"]
    blocks := [{ dtype := .int64, bufId := 0, mayShare := true, placement := [0] }] }

/-- The store after the guarded in-place setitem: the defensive deep copy
was appended, the original buffer untouched. -/
def exStore2 : Mem.Store Int := [[[1, 2]], [[9, 9]]]

/-- The mutated copy after the in-place setitem: re-pointed at the fresh
buffer, flag cleared. -/
def exShared2 : Mem.Manager :=
  { nRows := 2
    colIndex := ["a"]
    blocks := [{ dtype := .int64, bufId := 1, mayShare := false, placement := [0] }] }

/-- The store after inserting a new column into `exMem`. -/
def exStore7 : Mem.Store Int := [[[1, 2]], [[7, 8]]]

/-- `exMem` after inserting column "b" at position 1. -/
def exMem7 : Mem.Manager :=
  { nRows := 2
    colIndex := ["a", "b"]
    blocks := [{ dtype := .int64, bufId := 0, mayShare := false, placement := [0] },
               { dtype := .int64, bufId := 1, mayShare := false, placement := [1] }] }

/-! # Theorems -/

namespace ListAux

/-! ## Auxiliary list lemmas -/
theorem mem_of_lookup_eq_some {β : Type _} :
    ∀ {l : List (Nat × β)} {c : Nat} {v : β},
      l.lookup c = some v → (c, v) ∈ l := by
  intro l
  induction l with
  | nil => intro c v h; cases h
  | cons p t ih =>
    intro c v h
    obtain ⟨k, b⟩ := p
    by_cases hck : c = k
    · subst hck
      simp [List.lookup] at h
      subst h
      exact List.mem_cons_self _ _
    · have hbeq : (c == k) = false := beq_false_of_ne hck
      simp [List.lookup, hbeq] at h
      exact List.mem_cons_of_mem _ (ih h)

theorem lookup_eq_some_of_mem {β : Type _} :
    ∀ {l : List (Nat × β)}, (l.map Prod.fst).Nodup →
      ∀ {c : Nat} {v : β}, (c, v) ∈ l → l.lookup c = some v := by
  intro l
  induction l with
  | nil => intro _ c v hm; cases hm
  | cons p t ih =>
    intro hnd c v hm
    obtain ⟨k, b⟩ := p
    simp only [List.map_cons, List.nodup_cons] at hnd
    rcases List.mem_cons.mp hm with hm1 | hm2
    · cases hm1
      simp [List.lookup]
    · have hck : c ≠ k := by
        intro h
        apply hnd.1
        have : (c, v).1 ∈ List.map Prod.fst t := List.mem_map_of_mem Prod.fst hm2
        simpa [h] using this
      have hbeq : (c == k) = false := beq_false_of_ne hck
      simp only [List.lookup, hbeq]
      exact ih hnd.2 hm2

theorem lookup_eq_none_iff {β : Type _} :
    ∀ {l : List (Nat × β)} {c : Nat},
      l.lookup c = none ↔ c ∉ l.map Prod.fst := by
  intro l
  induction l with
  | nil => intro c; simp [List.lookup]
  | cons p t ih =>
    intro c
    obtain ⟨k, b⟩ := p
    by_cases hck : c = k
    · subst hck
      simp [List.lookup]
    · have hbeq : (c == k) = false := beq_false_of_ne hck
      simp [List.lookup, hbeq, ih, hck]

/-- Grouping a list by key values and concatenating the groups is a
permutation of the original list. -/
theorem flatMap_filter_key_perm {σ κ : Type _} [DecidableEq κ] (k : σ → κ) :
    ∀ (ds : List κ) (xs : List σ), ds.Nodup → (∀ x ∈ xs, k x ∈ ds) →
      (ds.flatMap (fun d => xs.filter (fun x => decide (k x = d)))).Perm xs := by
  intro ds
  induction ds with
  | nil =>
    intro xs _ hcov
    cases xs with
    | nil => simp
    | cons x t => exact absurd (hcov x (List.mem_cons_self _ _)) (by simp)
  | cons d ds ih =>
    intro xs hnd hcov
    simp only [List.nodup_cons] at hnd
    have hstep :
        ds.flatMap (fun d' => xs.filter (fun x => decide (k x = d')))
          = ds.flatMap (fun d' =>
              (xs.filter (fun x => !decide (k x = d))).filter
                (fun x => decide (k x = d'))) := by
      refine List.flatMap_congr (fun d' hd' => ?_)
      rw [List.filter_filter]
      refine List.filter_congr (fun x _ => ?_)
      by_cases hx : k x = d'
      · have hxd : ¬ (k x = d) := by
          intro h
        -- if the key is both d' (a tail dtype) and d (the head) then d ∈ ds
          apply hnd.1
          rw [← h, hx]
          exact hd'
        have hne : ¬ (d' = d) := fun he => hxd (by rw [hx, he])
        simp [hx, hxd, hne]
      · simp [hx]
    have hcov' : ∀ x ∈ xs.filter (fun x => !decide (k x = d)), k x ∈ ds := by
      intro x hx
      rcases List.mem_filter.mp hx with ⟨hxs, hne⟩
      rcases List.mem_cons.mp (hcov x hxs) with h | h
      · exfalso; simp [h] at hne
      · exact h
    have hsplitl : ((d :: ds).flatMap (fun d' => xs.filter (fun x => decide (k x = d'))))
        = xs.filter (fun x => decide (k x = d))
            ++ ds.flatMap (fun d' =>
                (xs.filter (fun x => !decide (k x = d))).filter
                  (fun x => decide (k x = d'))) := by
      rw [List.flatMap_cons, hstep]
    rw [hsplitl]
    exact List.Perm.trans
      (List.Perm.append_left _ (ih _ hnd.2 hcov'))
      (List.filter_append_perm _ xs)

theorem flatMap_filter_of_empty {β γ : Type _} (f : β → List γ) (p : β → Bool) :
    ∀ (bs : List β), (∀ b ∈ bs, p b = false → f b = []) →
      (bs.filter p).flatMap f = bs.flatMap f := by
  intro bs
  induction bs with
  | nil => intro _; rfl
  | cons b t ih =>
    intro h
    cases hb : p b with
    | true =>
      rw [List.filter_cons_of_pos hb, List.flatMap_cons, List.flatMap_cons,
        ih (fun x hx => h x (List.mem_cons_of_mem _ hx))]
    | false =>
      rw [List.filter_cons_of_neg (by simp [hb]), List.flatMap_cons,
        h b (List.mem_cons_self _ _) hb, List.nil_append,
        ih (fun x hx => h x (List.mem_cons_of_mem _ hx))]

/-- The rank map: sending each survivor of a filtered range to the number of
survivors strictly below it enumerates `0, 1, 2, …` in order. -/
theorem map_rank_filter_range (P : Nat → Bool) :
    ∀ n, ((List.range n).filter P).map
        (fun p => ((List.range p).filter P).length)
      = List.range ((List.range n).filter P).length := by
  intro n
  induction n with
  | zero => rfl
  | succ n ih =>
    rw [List.range_succ, List.filter_append, List.map_append, ih]
    cases hP : P n with
    | false =>
      rw [List.filter_cons_of_neg (by simp [hP]), List.filter_nil]
      simp
    | true =>
      rw [List.filter_cons_of_pos hP, List.filter_nil]
      simp only [List.map_cons, List.map_nil, List.length_append,
        List.length_cons, List.length_nil]
      rw [List.range_succ]

theorem length_filter_mem {del : List Nat} (hnd : del.Nodup) (p : Nat) :
    ((List.range p).filter (fun x => decide (x ∈ del))).length
      = (del.filter (fun x => decide (x < p))).length := by
  have h₁ : ((List.range p).filter (fun x => decide (x ∈ del))).Nodup :=
    List.Nodup.filter _ (List.nodup_range p)
  have h₂ : (del.filter (fun x => decide (x < p))).Nodup :=
    List.Nodup.filter _ hnd
  have hperm := (List.perm_ext_iff_of_nodup h₁ h₂).mpr (by
    intro a
    simp only [List.mem_filter, List.mem_range, decide_eq_true_eq]
    constructor
    · rintro ⟨ha, hm⟩; exact ⟨hm, ha⟩
    · rintro ⟨hm, ha⟩; exact ⟨ha, hm⟩)
  exact hperm.length_eq

theorem sub_length_filter {del : List Nat} (hnd : del.Nodup) (p : Nat) :
    p - (del.filter (fun x => decide (x < p))).length
      = ((List.range p).filter (fun x => decide (x ∉ del))).length := by
  have hsplit := List.length_eq_countP_add_countP
    (fun x => decide (x ∈ del)) (List.range p)
  rw [List.length_range] at hsplit
  rw [← length_filter_mem hnd p]
  rw [List.countP_eq_length_filter, List.countP_eq_length_filter] at hsplit
  have hcongr : (List.range p).filter (fun a => decide ¬decide (a ∈ del) = true)
      = (List.range p).filter (fun x => decide (x ∉ del)) := by
    refine List.filter_congr (fun x _ => ?_)
    by_cases hx : x ∈ del <;> simp [hx]
  rw [hcongr] at hsplit
  omega

theorem length_filter_not_mem {del : List Nat} {n : Nat}
    (hnd : del.Nodup) (hsub : ∀ x ∈ del, x < n) :
    ((List.range n).filter (fun x => decide (x ∉ del))).length
      = n - del.length := by
  have hmem : ((List.range n).filter (fun x => decide (x ∈ del))).length
      = del.length := by
    have h₁ : ((List.range n).filter (fun x => decide (x ∈ del))).Nodup :=
      List.Nodup.filter _ (List.nodup_range n)
    have hperm := (List.perm_ext_iff_of_nodup h₁ hnd).mpr (by
      intro a
      simp only [List.mem_filter, List.mem_range, decide_eq_true_eq]
      constructor
      · rintro ⟨_, hm⟩; exact hm
      · intro hm; exact ⟨hsub a hm, hm⟩)
    exact hperm.length_eq
  have hsplit := List.length_eq_countP_add_countP
    (fun x => decide (x ∈ del)) (List.range n)
  rw [List.length_range, List.countP_eq_length_filter,
    List.countP_eq_length_filter] at hsplit
  have hcongr : (List.range n).filter (fun a => decide ¬decide (a ∈ del) = true)
      = (List.range n).filter (fun x => decide (x ∉ del)) := by
    refine List.filter_congr (fun x _ => ?_)
    by_cases hx : x ∈ del <;> simp [hx]
  rw [hcongr] at hsplit
  omega

/-- Inserting a fresh position `pos` while shifting every old position `≥ pos`
up by one permutes `range (n+1)`. -/
theorem shift_insert_perm {pos n : Nat} (h : pos ≤ n) :
    (pos :: (List.range n).map (fun p => if pos ≤ p then p + 1 else p)).Perm
      (List.range (n + 1)) := by
  have hsplit : List.range n = List.range' 0 pos ++ List.range' pos (n - pos) := by
    have happ := List.range'_append 0 pos (n - pos) 1
    simp only [Nat.zero_add, Nat.one_mul] at happ
    rw [List.range_eq_range', happ]
    congr 1
    omega
  have hlow : (List.range' 0 pos).map (fun p => if pos ≤ p then p + 1 else p)
      = List.range' 0 pos := by
    rw [List.map_congr_left, List.map_id]
    intro x hx
    rcases List.mem_range'.mp hx with ⟨i, hi, hx⟩
    have : x < pos := by omega
    simp [Nat.not_le.mpr this]
  have hhigh : (List.range' pos (n - pos)).map (fun p => if pos ≤ p then p + 1 else p)
      = List.range' (pos + 1) (n - pos) := by
    have hc : (List.range' pos (n - pos)).map (fun p => if pos ≤ p then p + 1 else p)
        = (List.range' pos (n - pos)).map (fun p => 1 + p) := by
      refine List.map_congr_left (fun x hx => ?_)
      rcases List.mem_range'.mp hx with ⟨i, hi, hx⟩
      have : pos ≤ x := by omega
      simp [this]
      omega
    rw [hc, List.map_add_range']
    congr 1
    omega
  have h1 : (pos :: (List.range n).map (fun p => if pos ≤ p then p + 1 else p))
      = pos :: (List.range' 0 pos ++ List.range' (pos + 1) (n - pos)) := by
    rw [hsplit, List.map_append, hlow, hhigh]
  have h2 : List.range' 0 pos ++ pos :: List.range' (pos + 1) (n - pos)
      = List.range (n + 1) := by
    rw [← List.range'_succ]
    have happ := List.range'_append 0 pos (n - pos + 1) 1
    simp only [Nat.zero_add, Nat.one_mul] at happ
    rw [List.range_eq_range', happ]
    congr 1
    omega
  rw [h1, ← h2]
  exact (List.perm_middle).symm

theorem filter_ne_append_singleton_perm {l : List Nat} {a : Nat}
    (h : List.count a l = 1) :
    (l.filter (fun x => decide (x ≠ a)) ++ [a]).Perm l := by
  rw [List.perm_iff_count]
  intro q
  rw [List.count_append]
  by_cases hq : q = a
  · subst hq
    have h0 : List.count q (l.filter (fun x => decide (x ≠ q))) = 0 := by
      rw [List.count_eq_zero]
      intro hmem
      rcases List.mem_filter.mp hmem with ⟨_, hne⟩
      simp at hne
    rw [h0, h, List.count_singleton]
    simp
  · have hcount : List.count q (l.filter (fun x => decide (x ≠ a)))
        = List.count q l := List.count_filter (by simp [hq])
    have h1 : List.count q [a] = 0 := by
      have hba : (a == q) = false := beq_false_of_ne (fun he => hq he.symm)
      simp [List.count_cons, hba]
    rw [hcount, h1]
    simp

end ListAux

namespace Core

variable {α : Type}

theorem Block.pairs_map_fst {b : Block α} (h : b.buffer.length = b.placement.length) :
    b.pairs.map Prod.fst = b.placement :=
  List.map_fst_zip _ _ (le_of_eq h.symm)

theorem Block.pairs_length {b : Block α} (h : b.buffer.length = b.placement.length) :
    b.pairs.length = b.placement.length := by
  simp only [Block.pairs, List.length_zip]
  omega

theorem allPairs_map_fst {m : BlockManager α}
    (h : ∀ b ∈ m.blocks, b.buffer.length = b.placement.length) :
    (allPairs m).map Prod.fst = keys m := by
  unfold allPairs keys
  rw [List.map_flatMap]
  exact List.flatMap_congr (fun b hb => Block.pairs_map_fst (h b hb))

theorem wf_keys_nodup {m : BlockManager α} (h : m.wf) : (keys m).Nodup :=
  (h.2.2.symm).nodup (List.nodup_range _)

theorem findSome_getCol_some_iff :
    ∀ (bs : List (Block α)),
      (∀ b ∈ bs, b.buffer.length = b.placement.length) →
      (bs.flatMap Block.placement).Nodup →
      ∀ {c : Nat} {v : List α},
        (bs.findSome? (fun b => b.getCol c) = some v ↔ (c, v) ∈ bs.flatMap Block.pairs) := by
  intro bs
  induction bs with
  | nil => intro _ _ c v; simp [List.findSome?]
  | cons b t ih =>
    intro halign hnd c v
    have hbal : b.buffer.length = b.placement.length :=
      halign b (List.mem_cons_self _ _)
    have htal : ∀ b' ∈ t, b'.buffer.length = b'.placement.length :=
      fun b' hb' => halign b' (List.mem_cons_of_mem _ hb')
    rw [List.flatMap_cons] at hnd
    rcases List.nodup_append.mp hnd with ⟨hnd1, hnd2, hdisj⟩
    rw [List.findSome?_cons, List.flatMap_cons]
    cases hg : b.getCol c with
    | some v0 =>
      have hmem0 : (c, v0) ∈ b.pairs := ListAux.mem_of_lookup_eq_some hg
      have hckey : c ∈ b.placement := by
        rw [← Block.pairs_map_fst hbal]
        exact List.mem_map_of_mem Prod.fst hmem0
      constructor
      · intro hsome
        cases hsome
        exact List.mem_append_left _ hmem0
      · intro hmem
        rcases List.mem_append.mp hmem with hmem | hmem
        · have := ListAux.lookup_eq_some_of_mem
            (by rw [Block.pairs_map_fst hbal]; exact hnd1) hmem
          rw [Block.getCol] at hg
          rw [this] at hg
          cases hg
          rfl
        · exfalso
          have hc2 : c ∈ t.flatMap Block.placement := by
            rcases List.mem_flatMap.mp hmem with ⟨b', hb', hp⟩
            refine List.mem_flatMap.mpr ⟨b', hb', ?_⟩
            rw [← Block.pairs_map_fst (htal b' hb')]
            exact List.mem_map_of_mem Prod.fst hp
          exact (List.disjoint_left.mp hdisj hckey) hc2
    | none =>
      have hcnot : c ∉ b.placement := by
        have := ListAux.lookup_eq_none_iff.mp hg
        rw [Block.pairs_map_fst hbal] at this
        exact this
      rw [ih htal hnd2]
      constructor
      · intro hmem
        exact List.mem_append_right _ hmem
      · intro hmem
        rcases List.mem_append.mp hmem with hmem | hmem
        · exfalso
          apply hcnot
          rw [← Block.pairs_map_fst hbal]
          exact List.mem_map_of_mem Prod.fst hmem
        · exact hmem

theorem findSome_getCol_none_iff :
    ∀ (bs : List (Block α)),
      (∀ b ∈ bs, b.buffer.length = b.placement.length) →
      ∀ {c : Nat},
        (bs.findSome? (fun b => b.getCol c) = none ↔ c ∉ bs.flatMap Block.placement) := by
  intro bs
  induction bs with
  | nil => intro _ c; simp [List.findSome?]
  | cons b t ih =>
    intro halign c
    have hbal : b.buffer.length = b.placement.length :=
      halign b (List.mem_cons_self _ _)
    have htal : ∀ b' ∈ t, b'.buffer.length = b'.placement.length :=
      fun b' hb' => halign b' (List.mem_cons_of_mem _ hb')
    rw [List.findSome?_cons, List.flatMap_cons]
    cases hg : b.getCol c with
    | some v0 =>
      have hckey : c ∈ b.placement := by
        rw [← Block.pairs_map_fst hbal]
        exact List.mem_map_of_mem Prod.fst (ListAux.mem_of_lookup_eq_some hg)
      simp only [List.mem_append]
      constructor
      · intro h; cases h
      · intro h; exact absurd (Or.inl hckey) h
    | none =>
      have hcnot : c ∉ b.placement := by
        have := ListAux.lookup_eq_none_iff.mp hg
        rw [Block.pairs_map_fst hbal] at this
        exact this
      rw [ih htal]
      simp only [List.mem_append]
      constructor
      · intro h hor
        rcases hor with h1 | h2
        · exact hcnot h1
        · exact h h2
      · intro h h2
        exact h (Or.inr h2)

theorem get_column_some_iff {m : BlockManager α} (hwf : m.wf) {c : Nat} {v : List α} :
    m.get_column c = some v ↔ (c, v) ∈ allPairs m :=
  findSome_getCol_some_iff m.blocks hwf.1 (wf_keys_nodup hwf)

theorem get_column_none_iff {m : BlockManager α}
    (halign : ∀ b ∈ m.blocks, b.buffer.length = b.placement.length) {c : Nat} :
    m.get_column c = none ↔ c ∉ keys m :=
  findSome_getCol_none_iff m.blocks halign

theorem from_arrays_wf {arrays : List (Dtype × List α)} {nRows : Nat}
    {m : BlockManager α} (h : from_arrays arrays nRows = .ok m) : m.wf := by
  unfold from_arrays at h
  split at h
  case isFalse => cases h
  case isTrue hc =>
    cases h
    have hall := List.all_eq_true.mp hc
    refine ⟨?_, ?_, ?_⟩
    · intro b hb
      rcases List.mem_map.mp hb with ⟨d, _, rfl⟩
      simp
    · intro b hb col hcol
      rcases List.mem_map.mp hb with ⟨d, _, rfl⟩
      simp only at hcol
      rcases List.mem_map.mp hcol with ⟨ia, hia, rfl⟩
      have hmem : ia ∈ arrays.enum := (List.mem_filter.mp hia).1
      have := hall ia.2 (List.snd_mem_of_mem_enum hmem)
      simpa using this
    · have hkeys :
          ((((arrays.map Prod.fst).dedup).map (fun d =>
            let group := arrays.enum.filter (fun ia => decide (ia.2.1 = d))
            ({ dtype := d
               buffer := group.map (fun ia => ia.2.2)
               placement := group.map (fun ia => ia.1) } : Block α))).flatMap
                Block.placement)
            = ((((arrays.map Prod.fst).dedup)).flatMap (fun d =>
                arrays.enum.filter (fun ia => decide (ia.2.1 = d)))).map
                  (fun ia => ia.1) := by
        rw [List.flatMap_map, List.map_flatMap]
      simp only [BlockManager.wf] at *
      rw [hkeys]
      have hgrp := ListAux.flatMap_filter_key_perm (fun ia : Nat × (Dtype × List α) => ia.2.1)
        ((arrays.map Prod.fst).dedup) arrays.enum (List.nodup_dedup _)
        (fun ia hia => List.mem_dedup.mpr
          (List.mem_map_of_mem Prod.fst (List.snd_mem_of_mem_enum hia)))
      have := hgrp.map (fun ia : Nat × (Dtype × List α) => ia.1)
      refine this.trans ?_
      have : (arrays.enum.map (fun ia : Nat × (Dtype × List α) => ia.1))
          = List.range arrays.length := List.enum_map_fst arrays
      rw [this]

theorem insert_wf {m m' : BlockManager α} {pos : Nat} {d : Dtype} {arr : List α}
    (hwf : m.wf) (h : m.insert pos d arr = .ok m') : m'.wf := by
  unfold BlockManager.insert at h
  split at h
  case isFalse => cases h
  case isTrue hc =>
    cases h
    obtain ⟨hpos, hlen⟩ := hc
    refine ⟨?_, ?_, ?_⟩
    · intro b hb
      simp only at hb
      rcases List.mem_append.mp hb with hb | hb
      · rcases List.mem_map.mp hb with ⟨b0, hb0, rfl⟩
        simpa using hwf.1 b0 hb0
      · rcases List.mem_singleton.mp hb with rfl
        simp
    · intro b hb col hcol
      simp only at hb
      rcases List.mem_append.mp hb with hb | hb
      · rcases List.mem_map.mp hb with ⟨b0, hb0, rfl⟩
        exact hwf.2.1 b0 hb0 col hcol
      · rcases List.mem_singleton.mp hb with rfl
        rcases List.mem_singleton.mp hcol with rfl
        exact hlen
    · simp only
      rw [List.flatMap_append, List.flatMap_map]
      have h1 : (m.blocks.flatMap (fun b =>
          ({ b with placement := b.placement.map (shiftPos pos) } : Block α).placement))
          = (m.blocks.flatMap Block.placement).map (shiftPos pos) := by
        rw [List.map_flatMap]
      have h2 : (([({ dtype := d, buffer := [arr], placement := [pos] } : Block α)]).flatMap
          Block.placement) = [pos] := by
        simp [List.flatMap_cons]
      rw [h1, h2]
      refine List.Perm.trans (List.perm_append_singleton _ _) ?_
      refine List.Perm.trans (List.Perm.cons pos (hwf.2.2.map (shiftPos pos))) ?_
      have : ((List.range m.nCols).map (shiftPos pos))
          = (List.range m.nCols).map (fun p => if pos ≤ p then p + 1 else p) := rfl
      rw [this]
      exact ListAux.shift_insert_perm hpos

theorem filterMap_fst_eq {β : Type _} (l : List (Nat × β)) (p : Nat → Bool) (g : Nat → Nat) :
    (l.filter (fun pc => p pc.1)).map (fun pc => g pc.1)
      = ((l.map Prod.fst).filter p).map g := by
  rw [List.filter_map, List.map_map]
  rfl

theorem delete_wf {m m' : BlockManager α} {del : List Nat}
    (hwf : m.wf) (h : m.delete del = .ok m') : m'.wf := by
  unfold BlockManager.delete at h
  split at h
  case isFalse => cases h
  case isTrue hc =>
    cases h
    obtain ⟨hnd, hlt⟩ := hc
    refine ⟨?_, ?_, ?_⟩
    · intro b hb
      simp only at hb
      have hb' := (List.mem_filter.mp hb).1
      rcases List.mem_map.mp hb' with ⟨b0, hb0, rfl⟩
      simp [Block.deleteCols]
    · intro b hb col hcol
      simp only at hb
      have hb' := (List.mem_filter.mp hb).1
      rcases List.mem_map.mp hb' with ⟨b0, hb0, rfl⟩
      simp only [Block.deleteCols] at hcol
      rcases List.mem_map.mp hcol with ⟨pc, hpc, rfl⟩
      have hmem : pc ∈ b0.pairs := (List.mem_filter.mp hpc).1
      have hsnd : pc.2 ∈ b0.buffer := by
        obtain ⟨q, v⟩ := pc
        exact (List.of_mem_zip hmem).2
      exact hwf.2.1 b0 hb0 _ hsnd
    · simp only
      rw [ListAux.flatMap_filter_of_empty Block.placement _ _ (by
        intro b hb hfalse
        simp only [Bool.not_eq_false'] at hfalse
        exact List.isEmpty_iff.mp hfalse)]
      rw [List.flatMap_map]
      have hblk : ∀ b ∈ m.blocks,
          (Block.deleteCols b del).placement
            = (b.placement.filter (fun q => decide (q ∉ del))).map (adjustPos del) := by
        intro b hb
        simp only [Block.deleteCols]
        have : (b.pairs.filter (fun pc => decide (pc.1 ∉ del))).map
              (fun pc => adjustPos del pc.1)
            = ((b.pairs.map Prod.fst).filter (fun q => decide (q ∉ del))).map
              (adjustPos del) :=
          filterMap_fst_eq b.pairs (fun q => decide (q ∉ del)) (adjustPos del)
        rw [this, Block.pairs_map_fst (hwf.1 b hb)]
      rw [List.flatMap_congr hblk, ← List.map_flatMap, ← List.filter_flatMap]
      refine List.Perm.trans
        ((hwf.2.2.filter (fun q => decide (q ∉ del))).map (adjustPos del)) ?_
      have hpt : ∀ p ∈ (List.range m.nCols).filter (fun q => decide (q ∉ del)),
          adjustPos del p = ((List.range p).filter (fun q => decide (q ∉ del))).length := by
        intro p _
        unfold adjustPos
        exact ListAux.sub_length_filter hnd p
      rw [List.map_congr_left hpt, ListAux.map_rank_filter_range,
        ListAux.length_filter_not_mem hnd hlt]

theorem eq_of_mem_flatMap_nodup {σ : Type _} (g : σ → List Nat) :
    ∀ (l : List σ), (l.flatMap g).Nodup →
      ∀ x ∈ l, ∀ y ∈ l, ∀ a, a ∈ g x → a ∈ g y → x = y := by
  intro l
  induction l with
  | nil => intro _ x hx; cases hx
  | cons z t ih =>
    intro hnd x hx y hy a hax hay
    rw [List.flatMap_cons] at hnd
    rcases List.nodup_append.mp hnd with ⟨_, hnd2, hdisj⟩
    rcases List.mem_cons.mp hx with hxz | hxt
    · rcases List.mem_cons.mp hy with hyz | hyt
      · rw [hxz, hyz]
      · subst hxz
        exact False.elim ((List.disjoint_left.mp hdisj hax)
          (List.mem_flatMap.mpr ⟨y, hyt, hay⟩))
    · rcases List.mem_cons.mp hy with hyz | hyt
      · subst hyz
        exact False.elim ((List.disjoint_left.mp hdisj hay)
          (List.mem_flatMap.mpr ⟨x, hxt, hax⟩))
      · exact ih hnd2 x hxt y hyt a hax hay

theorem setitem_wf {m m' : BlockManager α} {pos : Nat} {d : Dtype} {vals : List α}
    (hwf : m.wf) (h : m.setitem pos d vals = .ok m') : m'.wf := by
  unfold BlockManager.setitem at h
  split at h
  case isFalse => cases h
  case isTrue hc =>
    cases h
    obtain ⟨hpos, hlen⟩ := hc
    refine ⟨?_, ?_, ?_⟩
    · intro b hb
      simp only at hb
      rcases List.mem_append.mp hb with hb | hb
      · have hb' := (List.mem_filter.mp hb).1
        rcases List.mem_map.mp hb' with ⟨b0, hb0, rfl⟩
        by_cases hmem : pos ∈ b0.placement
        · by_cases hdt : b0.dtype = d
          · simp only [hmem, hdt, if_true]
            simp only [Block.replaceCol, List.length_map]
            exact Block.pairs_length (hwf.1 b0 hb0)
          · simp only [hmem, hdt, if_true, if_false]
            simp [Block.dropCol]
        · simp only [hmem, if_false]
          exact hwf.1 b0 hb0
      · rcases hflag : (m.blocks.any (fun b =>
            decide (pos ∈ b.placement) && !decide (b.dtype = d))) with _ | _
        all_goals rw [hflag] at hb
        · simp at hb
        · rcases List.mem_singleton.mp (by simpa using hb) with rfl
          simp
    · intro b hb col hcol
      simp only at hb
      rcases List.mem_append.mp hb with hb | hb
      · have hb' := (List.mem_filter.mp hb).1
        rcases List.mem_map.mp hb' with ⟨b0, hb0, rfl⟩
        by_cases hmem : pos ∈ b0.placement
        · by_cases hdt : b0.dtype = d
          · simp only [hmem, hdt, if_true, Block.replaceCol] at hcol
            rcases List.mem_map.mp hcol with ⟨pc, hpc, rfl⟩
            by_cases hpcp : pc.1 = pos
            · simpa [hpcp] using hlen
            · simp only [hpcp, if_false]
              have hsnd : pc.2 ∈ b0.buffer := by
                obtain ⟨q, v⟩ := pc
                exact (List.of_mem_zip hpc).2
              exact hwf.2.1 b0 hb0 _ hsnd
          · simp only [hmem, hdt, if_true, if_false, Block.dropCol] at hcol
            rcases List.mem_map.mp hcol with ⟨pc, hpc, rfl⟩
            have hsnd : pc.2 ∈ b0.buffer := by
              obtain ⟨q, v⟩ := pc
              exact (List.of_mem_zip (List.mem_filter.mp hpc).1).2
            exact hwf.2.1 b0 hb0 _ hsnd
        · simp only [hmem, if_false] at hcol
          exact hwf.2.1 b0 hb0 col hcol
      · rcases hflag : (m.blocks.any (fun b =>
            decide (pos ∈ b.placement) && !decide (b.dtype = d))) with _ | _
        all_goals rw [hflag] at hb
        · simp at hb
        · rcases List.mem_singleton.mp (by simpa using hb) with rfl
          rcases List.mem_singleton.mp hcol with rfl
          exact hlen
    · simp only
      rw [List.flatMap_append]
      rw [ListAux.flatMap_filter_of_empty Block.placement _ _ (by
        intro b hb hfalse
        simp only [Bool.not_eq_false'] at hfalse
        exact List.isEmpty_iff.mp hfalse)]
      rw [List.flatMap_map]
      rcases hflag : (m.blocks.any (fun b =>
          decide (pos ∈ b.placement) && !decide (b.dtype = d))) with _ | _
      · -- no block is split: every placement is unchanged
        have hnone : ∀ b ∈ m.blocks, pos ∈ b.placement → b.dtype = d := by
          intro b hb hmem
          by_contra hdt
          have : m.blocks.any (fun b =>
              decide (pos ∈ b.placement) && !decide (b.dtype = d)) = true :=
            List.any_eq_true.mpr ⟨b, hb, by simp [hmem, hdt]⟩
          rw [hflag] at this
          cases this
        have hcongr : ∀ b ∈ m.blocks,
            (if pos ∈ b.placement then
              if b.dtype = d then b.replaceCol pos vals else b.dropCol pos
            else b).placement = b.placement := by
          intro b hb
          by_cases hmem : pos ∈ b.placement
          · rw [if_pos hmem, if_pos (hnone b hb hmem)]
            simp [Block.replaceCol]
          · rw [if_neg hmem]
        rw [List.flatMap_congr hcongr]
        simpa using hwf.2.2
      · -- one block is split: pos moves into the fresh one-column block
        rcases List.any_eq_true.mp hflag with ⟨b₀, hb₀, hfl⟩
        simp only [Bool.and_eq_true, decide_eq_true_eq, Bool.not_eq_true',
          decide_eq_false_iff_not] at hfl
        have hknd : (m.blocks.flatMap Block.placement).Nodup := wf_keys_nodup hwf
        have hcongr : ∀ b ∈ m.blocks,
            (if pos ∈ b.placement then
              if b.dtype = d then b.replaceCol pos vals else b.dropCol pos
            else b).placement
              = b.placement.filter (fun q => decide (q ≠ pos)) := by
          intro b hb
          by_cases hmem : pos ∈ b.placement
          · have hdt : ¬ (b.dtype = d) := by
              intro hdt
              have heq : b = b₀ :=
                eq_of_mem_flatMap_nodup Block.placement m.blocks hknd
                  b hb b₀ hb₀ pos hmem hfl.1
              rw [heq] at hdt
              exact hfl.2 hdt
            rw [if_pos hmem, if_neg hdt]
            simp only [Block.dropCol]
            have hfm : (b.pairs.filter (fun pc => decide (pc.1 ≠ pos))).map Prod.fst
                = ((b.pairs.map Prod.fst).filter (fun q => decide (q ≠ pos))).map id :=
              filterMap_fst_eq b.pairs (fun q => decide (q ≠ pos)) id
            rw [hfm, Block.pairs_map_fst (hwf.1 b hb), List.map_id]
          · rw [if_neg hmem]
            refine (List.filter_eq_self.mpr ?_).symm
            intro a ha
            simp only [decide_eq_true_eq]
            intro hap
            rw [hap] at ha
            exact hmem ha
        rw [List.flatMap_congr hcongr, ← List.filter_flatMap]
        have hcount : List.count pos (m.blocks.flatMap Block.placement) = 1 := by
          rw [List.perm_iff_count.mp hwf.2.2 pos]
          exact List.count_eq_one_of_mem (List.nodup_range _)
            (List.mem_range.mpr hpos)
        have hsing : (((if true = true
              then [({ dtype := d, buffer := [vals], placement := [pos] } : Block α)]
              else [])).flatMap Block.placement) = [pos] := by
          simp [List.flatMap_cons]
        rw [hsing]
        exact List.Perm.trans
          (ListAux.filter_ne_append_singleton_perm hcount) hwf.2.2

theorem concat_group_ok {m : BlockManager α} {d : Dtype}
    (hd : d ∈ (m.blocks.map Block.dtype).dedup) :
    concat_same_dtype (dtypeGroup m d)
      = .ok { dtype := d
              buffer := (dtypeGroup m d).flatMap Block.buffer
              placement := (dtypeGroup m d).flatMap Block.placement } := by
  have hne : dtypeGroup m d ≠ [] := by
    rcases List.mem_map.mp (List.mem_dedup.mp hd) with ⟨b₀, hb₀, hbd⟩
    intro hnil
    have hmem : b₀ ∈ dtypeGroup m d :=
      List.mem_filter.mpr ⟨hb₀, by simp [hbd]⟩
    rw [hnil] at hmem
    cases hmem
  cases hg : dtypeGroup m d with
  | nil => exact absurd hg hne
  | cons b rest =>
    have hbd : b.dtype = d := by
      have hmem : b ∈ dtypeGroup m d := by
        rw [hg]; exact List.mem_cons_self _ _
      simpa [dtypeGroup] using (List.mem_filter.mp hmem).2
    have hall : rest.all (fun b' => decide (b'.dtype = b.dtype)) = true := by
      refine List.all_eq_true.mpr (fun b' hb' => ?_)
      have hmem : b' ∈ dtypeGroup m d := by
        rw [hg]; exact List.mem_cons_of_mem _ hb'
      have h2 : b'.dtype = d := by
        simpa [dtypeGroup] using (List.mem_filter.mp hmem).2
      simp [h2, hbd]
    simp only [concat_same_dtype, hall, if_true]
    rw [hbd]

theorem flatMap_pairs_eq :
    ∀ (bs : List (Block α)), (∀ b ∈ bs, b.buffer.length = b.placement.length) →
      (bs.flatMap Block.placement).zip (bs.flatMap Block.buffer)
        = bs.flatMap Block.pairs := by
  intro bs
  induction bs with
  | nil => intro _; simp
  | cons b t ih =>
    intro hal
    rw [List.flatMap_cons, List.flatMap_cons, List.flatMap_cons,
      List.zip_append (hal b (List.mem_cons_self _ _)).symm,
      ih (fun b' hb' => hal b' (List.mem_cons_of_mem _ hb'))]
    rfl

theorem consolidate_blocks_eq {m : BlockManager α}
    (hal : ∀ b ∈ m.blocks, b.buffer.length = b.placement.length) :
    (m.consolidate).blocks
      = ((m.blocks.map Block.dtype).dedup).map (groupBlock m) := by
  unfold BlockManager.consolidate
  simp only
  refine List.map_congr_left (fun d hd => ?_)
  unfold consBlock
  have hg := concat_group_ok (m := m) hd
  unfold dtypeGroup at hg
  rw [hg]
  simp only [groupBlock]
  have hbig : ({ dtype := d
                 buffer := (dtypeGroup m d).flatMap Block.buffer
                 placement := (dtypeGroup m d).flatMap Block.placement } : Block α).pairs
      = (dtypeGroup m d).flatMap Block.pairs := by
    unfold Block.pairs
    exact flatMap_pairs_eq (dtypeGroup m d)
      (fun b hb => hal b (List.mem_filter.mp hb).1)
  unfold dtypeGroup at hbig
  rw [hbig]
  rfl

theorem groupBlock_pairs (m : BlockManager α) (d : Dtype) :
    (groupBlock m d).pairs = sortPairs ((dtypeGroup m d).flatMap Block.pairs) := by
  unfold groupBlock Block.pairs
  simp only
  have hz := List.zip_unzip (sortPairs ((dtypeGroup m d).flatMap Block.pairs))
  rw [List.unzip_eq_map] at hz
  exact hz

theorem consolidate_allPairs_perm {m : BlockManager α}
    (hal : ∀ b ∈ m.blocks, b.buffer.length = b.placement.length) :
    (allPairs m.consolidate).Perm (allPairs m) := by
  unfold allPairs
  rw [consolidate_blocks_eq hal, List.flatMap_map]
  have hstep : (((m.blocks.map Block.dtype).dedup).flatMap
      (fun d => Block.pairs (groupBlock m d))).Perm
      (((m.blocks.map Block.dtype).dedup).flatMap
      (fun d => (m.blocks.filter (fun b => decide (b.dtype = d))).flatMap Block.pairs)) := by
    refine List.Perm.flatMap_left _ (fun d _ => ?_)
    rw [groupBlock_pairs]
    unfold dtypeGroup
    exact List.perm_insertionSort _ _
  refine List.Perm.trans hstep ?_
  rw [← List.flatMap_assoc]
  exact List.Perm.flatMap_right Block.pairs
    (ListAux.flatMap_filter_key_perm Block.dtype _ m.blocks (List.nodup_dedup _)
      (fun b hb => List.mem_dedup.mpr (List.mem_map_of_mem Block.dtype hb)))

theorem consolidate_align {m : BlockManager α}
    (hal : ∀ b ∈ m.blocks, b.buffer.length = b.placement.length) :
    ∀ b ∈ m.consolidate.blocks, b.buffer.length = b.placement.length := by
  intro b hb
  rw [consolidate_blocks_eq hal] at hb
  rcases List.mem_map.mp hb with ⟨d, _, rfl⟩
  simp [groupBlock]

theorem consolidate_wf {m : BlockManager α} (hwf : m.wf) : m.consolidate.wf := by
  have hal := hwf.1
  refine ⟨consolidate_align hal, ?_, ?_⟩
  · intro b hb col hcol
    rw [consolidate_blocks_eq hal] at hb
    rcases List.mem_map.mp hb with ⟨d, _, rfl⟩
    simp only [groupBlock] at hcol
    rcases List.mem_map.mp hcol with ⟨pr, hpr, rfl⟩
    have hmem : pr ∈ (dtypeGroup m d).flatMap Block.pairs :=
      ((List.perm_insertionSort _ _).mem_iff).mp hpr
    rcases List.mem_flatMap.mp hmem with ⟨b0, hb0, hpb⟩
    have hb0m : b0 ∈ m.blocks := (List.mem_filter.mp hb0).1
    have hsnd : pr.2 ∈ b0.buffer := by
      obtain ⟨q, v⟩ := pr
      exact (List.of_mem_zip hpb).2
    exact hwf.2.1 b0 hb0m _ hsnd
  · have h1 : (allPairs m.consolidate).map Prod.fst
        = m.consolidate.blocks.flatMap Block.placement :=
      allPairs_map_fst (consolidate_align hal)
    have h2 : (allPairs m).map Prod.fst = m.blocks.flatMap Block.placement :=
      allPairs_map_fst hal
    have h3 : m.consolidate.nCols = m.nCols := rfl
    rw [← h1, h3]
    refine List.Perm.trans ((consolidate_allPairs_perm hal).map Prod.fst) ?_
    rw [h2]
    exact hwf.2.2

theorem take_wf [Inhabited α] {m m' : BlockManager α} {P : List Nat}
    (hwf : m.wf) (h : m.take P = .ok m') : m'.wf := by
  unfold BlockManager.take at h
  split at h
  case isFalse => cases h
  case isTrue hc =>
    cases h
    refine ⟨?_, ?_, ?_⟩
    · intro b hb
      simp only at hb
      rcases List.mem_map.mp hb with ⟨b0, hb0, rfl⟩
      simpa using hwf.1 b0 hb0
    · intro b hb col hcol
      simp only at hb
      rcases List.mem_map.mp hb with ⟨b0, hb0, rfl⟩
      simp only at hcol
      rcases List.mem_map.mp hcol with ⟨c0, hc0, rfl⟩
      simp
    · simp only
      rw [List.flatMap_map]
      exact hwf.2.2

theorem reachable_wf [Inhabited α] {m : BlockManager α} (h : Reachable m) : m.wf := by
  induction h with
  | of_from_arrays h => exact from_arrays_wf h
  | of_insert _ h ih => exact insert_wf ih h
  | of_delete _ h ih => exact delete_wf ih h
  | of_setitem _ h ih => exact setitem_wf ih h
  | of_consolidate _ ih => exact consolidate_wf ih
  | of_take _ h ih => exact take_wf ih h

theorem wf_partitionInv {m : BlockManager α} (hwf : m.wf) : PartitionInv m := by
  refine ⟨hwf.2.2, ?_, hwf.2.1⟩
  have hlen := hwf.2.2.length_eq
  rw [List.length_flatMap, List.length_range] at hlen
  rw [← hlen]
  rfl

theorem sortPairs_sorted (ps : List (Nat × List α)) :
    List.Sorted (fun p q : Nat × List α => p.1 ≤ q.1) (sortPairs ps) :=
  List.sorted_insertionSort _ _

theorem sortPairs_idem (ps : List (Nat × List α)) :
    sortPairs (sortPairs ps) = sortPairs ps :=
  List.Sorted.insertionSort_eq (sortPairs_sorted ps)

theorem concat_singleton (b : Block α) : concat_same_dtype [b] = .ok b := by
  simp [concat_same_dtype]

theorem consolidate_idem {m : BlockManager α}
    (hal : ∀ b ∈ m.blocks, b.buffer.length = b.placement.length) :
    m.consolidate.consolidate = m.consolidate := by
  have hBlocks : m.consolidate.blocks
      = ((m.blocks.map Block.dtype).dedup).map (groupBlock m) :=
    consolidate_blocks_eq hal
  have hnd : ((m.blocks.map Block.dtype).dedup).Nodup := List.nodup_dedup _
  have hdt : m.consolidate.blocks.map Block.dtype = (m.blocks.map Block.dtype).dedup := by
    rw [hBlocks, List.map_map]
    have hcomp : (Block.dtype ∘ groupBlock m) = id := by funext d; rfl
    rw [hcomp, List.map_id]
  have hgrp : ∀ d ∈ (m.blocks.map Block.dtype).dedup,
      m.consolidate.blocks.filter (fun b => decide (b.dtype = d))
        = [groupBlock m d] := by
    intro d hdm
    rw [hBlocks, List.filter_map]
    have hcomp : ((fun b : Block α => decide (b.dtype = d)) ∘ (groupBlock m))
        = fun d' => decide (d' = d) := by funext d'; rfl
    rw [hcomp, List.filter_eq, List.count_eq_one_of_mem hnd hdm,
      List.replicate_one, List.map_singleton]
  have hone : ∀ d ∈ (m.blocks.map Block.dtype).dedup,
      consBlock m.consolidate d = groupBlock m d := by
    intro d hdm
    unfold consBlock
    rw [hgrp d hdm, concat_singleton]
    simp only
    rw [groupBlock_pairs, sortPairs_idem]
    rfl
  show ({ nRows := m.consolidate.nRows
          nCols := m.consolidate.nCols
          blocks := ((m.consolidate.blocks.map Block.dtype).dedup).map
            (consBlock m.consolidate)
          consolidated := true } : BlockManager α) = m.consolidate
  rw [hdt, List.dedup_eq_self.mpr hnd, List.map_congr_left hone, ← hBlocks]
  rfl

theorem consolidate_get_column {m : BlockManager α} (hwf : m.wf) (c : Nat) :
    m.consolidate.get_column c = m.get_column c := by
  have hwfc := consolidate_wf hwf
  cases hg : m.get_column c with
  | some v =>
    have hmem := (get_column_some_iff hwf).mp hg
    have hmem' : (c, v) ∈ allPairs m.consolidate :=
      ((consolidate_allPairs_perm hwf.1).mem_iff).mpr hmem
    exact (get_column_some_iff hwfc).mpr hmem'
  | none =>
    have hnk := (get_column_none_iff hwf.1).mp hg
    refine (get_column_none_iff hwfc.1).mpr ?_
    intro hk
    apply hnk
    have h1 : keys m.consolidate = (allPairs m.consolidate).map Prod.fst :=
      (allPairs_map_fst hwfc.1).symm
    have h2 : keys m = (allPairs m).map Prod.fst :=
      (allPairs_map_fst hwf.1).symm
    rw [h1] at hk
    rw [h2]
    exact ((consolidate_allPairs_perm hwf.1).map Prod.fst).mem_iff.mp hk

end Core

namespace ListAux

theorem lookup_map_value {β γ : Type _} (g : β → γ) :
    ∀ (l : List (Nat × β)) (c : Nat),
      (l.map (fun pc => (pc.1, g pc.2))).lookup c = (l.lookup c).map g := by
  intro l
  induction l with
  | nil => intro c; rfl
  | cons p t ih =>
    intro c
    obtain ⟨k, b⟩ := p
    by_cases hck : c = k
    · subst hck
      simp [List.lookup]
    · have hbeq : (c == k) = false := beq_false_of_ne hck
      simp [List.lookup, hbeq, ih]

theorem findSome_map_option {σ β γ : Type _} (f : σ → Option β) (g : β → γ) :
    ∀ (l : List σ),
      l.findSome? (fun x => (f x).map g) = (l.findSome? f).map g := by
  intro l
  induction l with
  | nil => rfl
  | cons x t ih =>
    rw [List.findSome?_cons, List.findSome?_cons]
    cases hf : f x <;> simp [hf, ih]

end ListAux

namespace Core

variable {α : Type}

theorem getCol_map_buffer (b : Block α) (g : List α → List α) (c : Nat) :
    (Block.mk b.dtype (b.buffer.map g) b.placement).getCol c
      = (b.getCol c).map g := by
  unfold Block.getCol Block.pairs
  simp only
  rw [List.zip_map_right]
  have hmap : (Prod.map (@id Nat) g) = fun pc : Nat × List α => (pc.1, g pc.2) := by
    funext pc
    rfl
  rw [hmap]
  exact ListAux.lookup_map_value g b.pairs c

theorem take_ok_bounds [Inhabited α] {m m' : BlockManager α} {P : List Nat}
    (h : m.take P = .ok m') : (∀ p ∈ P, p < m.nRows) ∧ m'.nRows = P.length := by
  unfold BlockManager.take at h
  split at h
  case isFalse => cases h
  case isTrue hc =>
    cases h
    exact ⟨fun p hp => by simpa using List.all_eq_true.mp hc p hp, rfl⟩

theorem take_get_column [Inhabited α] {m m' : BlockManager α} {P : List Nat}
    (h : m.take P = .ok m') (c : Nat) :
    m'.get_column c
      = (m.get_column c).map (fun col => P.map (fun i => col.getD i default)) := by
  unfold BlockManager.take at h
  split at h
  case isFalse => cases h
  case isTrue hc =>
    cases h
    simp only [BlockManager.get_column]
    rw [List.findSome?_map]
    have hfun : ((fun b : Block α => b.getCol c) ∘ (fun b : Block α =>
        { b with
          buffer := b.buffer.map (fun col => P.map (fun i => col.getD i default)) }))
        = fun b : Block α =>
            (b.getCol c).map (fun col => P.map (fun i => col.getD i default)) := by
      funext b
      exact getCol_map_buffer b _ c
    rw [hfun]
    exact ListAux.findSome_map_option (fun b : Block α => b.getCol c) _ m.blocks

theorem get_column_length {m : BlockManager α} (hwf : m.wf) {c : Nat} {col : List α}
    (h : m.get_column c = some col) : col.length = m.nRows := by
  have hmem := (get_column_some_iff hwf).mp h
  rcases List.mem_flatMap.mp hmem with ⟨b, hb, hp⟩
  exact hwf.2.1 b hb col (List.of_mem_zip hp).2

end Core

namespace ListAux

theorem findSome_congr {σ β : Type _} {f g : σ → Option β} :
    ∀ {l : List σ}, (∀ x ∈ l, f x = g x) → l.findSome? f = l.findSome? g := by
  intro l
  induction l with
  | nil => intro _; rfl
  | cons x t ih =>
    intro h
    rw [List.findSome?_cons, List.findSome?_cons, h x (List.mem_cons_self _ _),
      ih (fun y hy => h y (List.mem_cons_of_mem _ hy))]

end ListAux

namespace Mem

variable {α : Type}

theorem insert_locality {store store' : Store α} {m m' : Manager}
    {pos : Nat} {label : String} {d : Dtype} {arr : List α}
    (h : insert store m pos label d arr = .ok (store', m')) :
    (∀ id, id < store.length → store'[id]? = store[id]?) ∧
    m'.blocks.length = m.blocks.length + 1 ∧
    (∀ i, i < m.blocks.length →
      ∀ b, m.blocks[i]? = some b →
        m'.blocks[i]? = some { b with
          placement := b.placement.map (fun p => if pos ≤ p then p + 1 else p) }) ∧
    m'.blocks[m.blocks.length]?
      = some { dtype := d, bufId := store.length, mayShare := false,
               placement := [pos] } ∧
    m'.colIndex = m.colIndex.insertIdx pos label := by
  unfold insert at h
  split at h
  case isFalse => cases h
  case isTrue hc =>
    injection h with h1
    injection h1 with hs hm
    subst hs
    subst hm
    refine ⟨?_, ?_, ?_, ?_, rfl⟩
    · intro id hid
      exact List.getElem?_append_left hid
    · simp
    · intro i hi b hb
      simp only
      rw [List.getElem?_append_left (by simpa using hi), List.getElem?_map, hb]
      rfl
    · simp only
      rw [List.getElem?_append]
      simp

theorem getCol_append_store {store : Store α} {buf : Buffer α} {b : Block}
    (hvalid : b.bufId < store.length) (c : Nat) :
    b.getCol (store ++ [buf]) c = b.getCol store c := by
  unfold Block.getCol
  rw [List.getD_eq_getElem?_getD, List.getD_eq_getElem?_getD,
    List.getElem?_append_left hvalid]

theorem get_column_append_store {store : Store α} {buf : Buffer α} {mo : Manager}
    (hvalid : ∀ b ∈ mo.blocks, b.bufId < store.length) (c : Nat) :
    mo.get_column (store ++ [buf]) c = mo.get_column store c := by
  unfold Manager.get_column
  exact ListAux.findSome_congr (fun b hb => getCol_append_store (hvalid b hb) c)

theorem setitemBlocks_shared {store : Store α} {pos : Nat} {vals : List α} :
    ∀ {blocks : List Block}, (∀ b ∈ blocks, b.mayShare = true) →
      ∀ {s' : Store α} {bs' : List Block},
        setitemBlocks store blocks pos vals = some (s', bs') →
        ∃ buf, s' = store ++ [buf] := by
  intro blocks
  induction blocks with
  | nil => intro _ s' bs' h; cases h
  | cons b rest ih =>
    intro hall s' bs' h
    unfold setitemBlocks at h
    by_cases hmem : pos ∈ b.placement
    · rw [if_pos hmem] at h
      rw [hall b (List.mem_cons_self _ _)] at h
      simp only [if_true] at h
      injection h with h1
      injection h1 with hs hb
      exact ⟨_, hs.symm⟩
    · rw [if_neg hmem] at h
      cases hrec : setitemBlocks store rest pos vals with
      | none =>
        rw [hrec] at h
        cases h
      | some sb =>
        rw [hrec] at h
        simp only [Option.map_some'] at h
        injection h with h1
        injection h1 with hs hb
        rcases ih (fun b' hb' => hall b' (List.mem_cons_of_mem _ hb'))
          (show setitemBlocks store rest pos vals = some (sb.1, sb.2) by
            rw [hrec]) with ⟨buf, hbuf⟩
        exact ⟨buf, by rw [← hs, hbuf]⟩

theorem setitem_inplace_shared {store s' : Store α} {m m2' : Manager}
    {pos : Nat} {vals : List α}
    (hshare : ∀ b ∈ m.blocks, b.mayShare = true)
    (h : setitem_inplace store m pos vals = .ok (s', m2')) :
    ∃ buf, s' = store ++ [buf] := by
  unfold setitem_inplace at h
  cases hsb : setitemBlocks store m.blocks pos vals with
  | none =>
    rw [hsb] at h
    cases h
  | some sb =>
    rw [hsb] at h
    injection h with h1
    injection h1 with hs hm
    subst hs
    exact setitemBlocks_shared hshare
      (show setitemBlocks store m.blocks pos vals = some (sb.1, sb.2) by rw [hsb])

end Mem

namespace MaskedAccum

theorem writeMasked_getElem {values : List Int} {mask : List Bool} {fill : Int}
    {i : Nat} (hi : i < values.length) (hm : mask[i]? = some true) :
    (writeMasked values mask fill)[i]? = some fill := by
  unfold writeMasked
  rw [List.getElem?_zipWith, List.getElem?_eq_getElem hi, hm]
  simp

theorem cum_func_mutates {func : AccFunc} {d : AccDtype} {values : List Int}
    {mask : List Bool} {skipna : Bool} {i : Nat}
    (hi : i < values.length) (hm : mask[i]? = some true) :
    (_cum_func func d values mask skipna).1[i]? = some (fillValue func d) :=
  writeMasked_getElem hi hm

end MaskedAccum

namespace MaskOps

theorem lor_comm (a b : List Bool) : lor a b = lor b a := by
  unfold lor
  rw [List.zipWith_comm]
  congr 1
  funext x y
  exact Bool.or_comm y x

theorem land_comm (a b : List Bool) : land a b = land b a := by
  unfold land
  rw [List.zipWith_comm]
  congr 1
  funext x y
  exact Bool.and_comm y x

theorem lxor_comm (a b : List Bool) :
    List.zipWith Bool.xor a b = List.zipWith Bool.xor b a := by
  rw [List.zipWith_comm]
  congr 1
  funext x y
  exact Bool.xor_comm y x

theorem kleene_or_comm (left right : KVal) (left_mask right_mask : Option (List Bool))
    (hnn : ¬ (left_mask = none ∧ right_mask = none))
    (hl : ∀ lm, left_mask = some lm → ∃ lvs, left = .arr lvs)
    (hr : ∀ rm, right_mask = some rm → ∃ rvs, right = .arr rvs) :
    kleene_or left right left_mask right_mask
      = kleene_or right left right_mask left_mask := by
  cases hlm : left_mask with
  | none =>
    cases hrm : right_mask with
    | none => exact absurd ⟨hlm, hrm⟩ hnn
    | some rm => rfl
  | some lm =>
    cases hrm : right_mask with
    | none => rfl
    | some rm =>
      obtain ⟨lvs, rfl⟩ := hl lm hlm
      obtain ⟨rvs, rfl⟩ := hr rm hrm
      show Except.ok (lor lvs rvs,
          lor (lor (land (lnot (lor lvs lm)) rm) (land (lnot (lor rvs rm)) lm))
            (land lm rm))
        = Except.ok (lor rvs lvs,
          lor (lor (land (lnot (lor rvs rm)) lm) (land (lnot (lor lvs lm)) rm))
            (land rm lm))
      rw [lor_comm lvs rvs,
        lor_comm (land (lnot (lor lvs lm)) rm) (land (lnot (lor rvs rm)) lm),
        land_comm lm rm]

theorem kleene_xor_comm (left right : KVal) (left_mask right_mask : Option (List Bool))
    (hnn : ¬ (left_mask = none ∧ right_mask = none))
    (hl : ∀ lm, left_mask = some lm → ∃ lvs, left = .arr lvs)
    (hr : ∀ rm, right_mask = some rm → ∃ rvs, right = .arr rvs) :
    kleene_xor left right left_mask right_mask
      = kleene_xor right left right_mask left_mask := by
  cases hlm : left_mask with
  | none =>
    cases hrm : right_mask with
    | none => exact absurd ⟨hlm, hrm⟩ hnn
    | some rm => rfl
  | some lm =>
    cases hrm : right_mask with
    | none => rfl
    | some rm =>
      obtain ⟨lvs, rfl⟩ := hl lm hlm
      obtain ⟨rvs, rfl⟩ := hr rm hrm
      show Except.ok (List.zipWith Bool.xor lvs rvs, lor lm rm)
        = Except.ok (List.zipWith Bool.xor rvs lvs, lor rm lm)
      rw [lxor_comm lvs rvs, lor_comm lm rm]

theorem kleene_and_comm (left right : KVal) (left_mask right_mask : Option (List Bool))
    (hnn : ¬ (left_mask = none ∧ right_mask = none))
    (hl : ∀ lm, left_mask = some lm → ∃ lvs, left = .arr lvs)
    (hr : ∀ rm, right_mask = some rm → ∃ rvs, right = .arr rvs) :
    kleene_and left right left_mask right_mask
      = kleene_and right left right_mask left_mask := by
  cases hlm : left_mask with
  | none =>
    cases hrm : right_mask with
    | none => exact absurd ⟨hlm, hrm⟩ hnn
    | some rm => rfl
  | some lm =>
    cases hrm : right_mask with
    | none => rfl
    | some rm =>
      obtain ⟨lvs, rfl⟩ := hl lm hlm
      obtain ⟨rvs, rfl⟩ := hr rm hrm
      show Except.ok (land lvs rvs,
          lor (land lm (lnot (lnot (lor rvs rm)))) (land rm (lnot (lnot (lor lvs lm)))))
        = Except.ok (land rvs lvs,
          lor (land rm (lnot (lnot (lor lvs lm)))) (land lm (lnot (lnot (lor rvs rm)))))
      rw [land_comm lvs rvs,
        lor_comm (land lm (lnot (lnot (lor rvs rm)))) (land rm (lnot (lnot (lor lvs lm))))]

end MaskOps

/-! ## The claims -/
/-- C1: Partition invariant — for every BlockManager reachable through the
public operations (construction via `from_arrays` followed by any sequence
of `insert`, `delete`, `setitem`, `consolidate`, `take`), the placements of
its blocks exactly partition the column range: their multiset union is a
permutation of `{0, …, nCols-1}` (so the union is everything and no
position is claimed twice), the placement sizes sum to `nCols`, and every
block's row count equals the row-index length. -/
theorem partition_invariant_reachable {α : Type} [Inhabited α]
    (m : Core.BlockManager α) (h : Core.Reachable m) : Core.PartitionInv m :=
  Core.wf_partitionInv (Core.reachable_wf h)

theorem partition_invariant_reachable_witness :
    Core.PartitionInv (Core.BlockManager.consolidate exManager) :=
  partition_invariant_reachable _
    (Core.Reachable.of_consolidate
      (Core.Reachable.of_from_arrays
        (show Core.from_arrays exArrays 3 = .ok exManager by decide)))

/-- C4: same-dtype concatenation failure — whenever `concat_same_dtype` is
applied to blocks whose dtypes are not all identical it fails with
`IncompatibleDtypeError`, and a successful call never coerces: every input
block has exactly the result's dtype. -/
theorem concat_same_dtype_incompatible {α : Type} (blocks : List (Core.Block α)) :
    ((∃ b1 ∈ blocks, ∃ b2 ∈ blocks, b1.dtype ≠ b2.dtype) →
      Core.concat_same_dtype blocks = .error .incompatibleDtype) ∧
    (∀ b', Core.concat_same_dtype blocks = .ok b' →
      ∀ b ∈ blocks, b.dtype = b'.dtype) := by
  cases blocks with
  | nil =>
    constructor
    · rintro ⟨b1, hb1, -⟩
      cases hb1
    · intro b' h
      cases h
  | cons b rest =>
    cases hall : rest.all (fun b' => decide (b'.dtype = b.dtype)) with
    | true =>
      have hsame : ∀ b' ∈ b :: rest, b'.dtype = b.dtype := by
        intro b' hb'
        rcases List.mem_cons.mp hb' with rfl | hb'
        · rfl
        · simpa using List.all_eq_true.mp hall b' hb'
      constructor
      · rintro ⟨b1, hb1, b2, hb2, hne⟩
        exact absurd ((hsame b1 hb1).trans (hsame b2 hb2).symm) hne
      · intro b' h
        simp only [Core.concat_same_dtype, hall, if_true] at h
        injection h with h1
        intro bx hbx
        rw [hsame bx hbx, ← h1]
    | false =>
      have herr : Core.concat_same_dtype (b :: rest) = .error .incompatibleDtype := by
        simp [Core.concat_same_dtype, hall]
      constructor
      · intro _
        exact herr
      · intro b' h
        rw [herr] at h
        cases h

theorem concat_same_dtype_incompatible_witness :
    Core.concat_same_dtype [exBlockInt, exBlockFloat] = .error .incompatibleDtype ∧
    exBlockInt.dtype
      = (Core.Block.mk .int64 [[1, 2, 3], [7, 8, 9]] [0, 1]).dtype := by
  constructor
  · exact (concat_same_dtype_incompatible [exBlockInt, exBlockFloat]).1
      ⟨exBlockInt, by simp, exBlockFloat, by simp, by decide⟩
  · exact (concat_same_dtype_incompatible
        [exBlockInt, { dtype := .int64, buffer := [[7, 8, 9]], placement := [1] }]).2
      (Core.Block.mk .int64 [[1, 2, 3], [7, 8, 9]] [0, 1]) (by decide)
      exBlockInt (by simp)

/-- C5: consolidation round-trip and idempotence — for every well-formed
BlockManager, `get_column` after `consolidate` is element-wise unchanged at
every column, and consolidation is idempotent: consolidating twice yields
exactly the same manager (same block structure). -/
theorem consolidate_roundtrip_idempotent {α : Type} (m : Core.BlockManager α)
    (hwf : m.wf) :
    (∀ c, m.consolidate.get_column c = m.get_column c) ∧
    m.consolidate.consolidate = m.consolidate :=
  ⟨fun c => Core.consolidate_get_column hwf c, Core.consolidate_idem hwf.1⟩

theorem consolidate_roundtrip_idempotent_witness :
    exManager.consolidate.get_column 2 = exManager.get_column 2 ∧
    exManager.consolidate.consolidate = exManager.consolidate :=
  ⟨(consolidate_roundtrip_idempotent exManager (by decide)).1 2,
   (consolidate_roundtrip_idempotent exManager (by decide)).2⟩

/-- C6: take alignment — for every well-formed manager, row selection `P`
accepted by `take`, and column `c`, the taken column has length `len P` and
satisfies `take(P).get_column(c)[i] = get_column(c)[P[i]]` at every valid
position (rows are reordered/duplicated/subset by position, element values
untouched). -/
theorem take_row_alignment {α : Type} [Inhabited α]
    {m m' : Core.BlockManager α} {P : List Nat}
    (hwf : m.wf) (htake : m.take P = .ok m')
    {c : Nat} {col : List α} (hcol : m.get_column c = some col) :
    ∃ col', m'.get_column c = some col' ∧ col'.length = P.length ∧
      ∀ (i p : Nat), P[i]? = some p → col'[i]? = col[p]? := by
  have hgc := Core.take_get_column htake c
  rw [hcol] at hgc
  refine ⟨P.map (fun i => col.getD i default), by simpa using hgc, by simp, ?_⟩
  intro i p hip
  rw [List.getElem?_map, hip]
  have hpm : p ∈ P := by
    rcases List.getElem?_eq_some_iff.mp hip with ⟨hlt, rfl⟩
    exact List.getElem_mem hlt
  have hplt : p < m.nRows := (Core.take_ok_bounds htake).1 p hpm
  have hcl : col.length = m.nRows := Core.get_column_length hwf hcol
  have hp2 : p < col.length := by omega
  rw [List.getElem?_eq_getElem hp2]
  simp [List.getD_eq_getElem?_getD, List.getElem?_eq_getElem hp2]

theorem take_row_alignment_witness :
    ∃ col', exTaken.get_column 0 = some col' ∧ col'.length = 4 ∧
      ∀ (i p : Nat), ([2, 0, 1, 0] : List Nat)[i]? = some p →
        col'[i]? = ([1, 2, 3] : List Int)[p]? :=
  take_row_alignment (by decide)
    (show Core.BlockManager.take exManager [2, 0, 1, 0] = .ok exTaken by decide)
    (show Core.BlockManager.get_column exManager 0 = some [1, 2, 3] by decide)

/-- C3: dtype promotion — promoting any integer dtype with a float fill
value yields float64 with `np.nan` as the array missing-value marker,
promoting with a null fill value (`np.nan` or `None`) likewise yields
float64; and `Block.apply` of an add with a float64 operand on an int64
block always produces a float64 result, matching
`promote(int64, add, float64) = float64`. -/
theorem int_promotion_float64 :
    (∀ d : Dtype, d.isInteger = true →
      (∀ q : Rat, maybe_promote d (.floatVal q) = (.float64, .nan)) ∧
      maybe_promote d .nanVal = (.float64, .nan) ∧
      maybe_promote d .noneVal = (.float64, .nan)) ∧
    (∀ (b : Core.Block Int) (op : BinOp) (kernel : List Int → List Int),
      b.dtype = .int64 →
        (b.applyBin op .float64 kernel).dtype = .float64 ∧
        promote .int64 op .float64 = .float64) := by
  constructor
  · intro d hd
    refine ⟨fun q => ?_, ?_, ?_⟩ <;> simp [maybe_promote, hd]
  · intro b op kernel hb
    have hp : promote .int64 op .float64 = .float64 := by
      cases op <;> rfl
    exact ⟨by simp [Core.Block.applyBin, hb, hp], hp⟩

theorem int_promotion_float64_witness :
    maybe_promote .int64 (.floatVal 1) = (.float64, .nan) ∧
    (exBlockInt.applyBin .add .float64 id).dtype = .float64 :=
  ⟨(int_promotion_float64.1 .int64 rfl).1 1,
   (int_promotion_float64.2 exBlockInt .add id rfl).1⟩

/-- C9: the masked accumulation kernels mutate their input buffer in place —
for every values array and mask, `_cum_func` (through each of `cumsum`,
`cumprod`, `cummin`, `cummax`) writes the operation's fill value into
`values[mask]` on the caller's array (here the first component of the
result, which models the caller's buffer after the call): every position
flagged missing in the input is overwritten with the fill value, in
addition to the returned accumulation. -/
theorem masked_cum_func_inplace_fill (d : MaskedAccum.AccDtype)
    (values : List Int) (mask : List Bool) (skipna : Bool) (i : Nat)
    (hi : i < values.length) (hm : mask[i]? = some true) :
    (MaskedAccum.cumsum d values mask skipna).1[i]? = some 0 ∧
    (MaskedAccum.cumprod d values mask skipna).1[i]? = some 1 ∧
    (MaskedAccum.cummin d values mask skipna).1[i]? = some (MaskedAccum.iinfoMax d) ∧
    (MaskedAccum.cummax d values mask skipna).1[i]? = some (MaskedAccum.iinfoMin d) :=
  ⟨MaskedAccum.cum_func_mutates hi hm, MaskedAccum.cum_func_mutates hi hm,
   MaskedAccum.cum_func_mutates hi hm, MaskedAccum.cum_func_mutates hi hm⟩

theorem masked_cum_func_inplace_fill_witness :
    (MaskedAccum.cumsum .i64 [5, 7] [false, true] true).1[1]? = some 0 ∧
    (MaskedAccum.cumprod .i64 [5, 7] [false, true] true).1[1]? = some 1 ∧
    (MaskedAccum.cummin .i64 [5, 7] [false, true] true).1[1]?
      = some (MaskedAccum.iinfoMax .i64) ∧
    (MaskedAccum.cummax .i64 [5, 7] [false, true] true).1[1]?
      = some (MaskedAccum.iinfoMin .i64) :=
  masked_cum_func_inplace_fill .i64 [5, 7] [false, true] true 1
    (by decide) (by decide)

/-- C10: the Kleene-logic kernels are commutative — for all boolean/NA/array
value operands and masks with at most one mask `None` (a `None` mask marks
the scalar operand, an array operand carries its mask), `kleene_or`,
`kleene_and` and `kleene_xor` return the same (result, mask) pair on
`(left, right, left_mask, right_mask)` as on the swapped arguments. -/
theorem kleene_ops_commutative (left right : MaskOps.KVal)
    (left_mask right_mask : Option (List Bool))
    (hnn : ¬ (left_mask = none ∧ right_mask = none))
    (hl : ∀ lm, left_mask = some lm → ∃ lvs, left = .arr lvs)
    (hr : ∀ rm, right_mask = some rm → ∃ rvs, right = .arr rvs) :
    MaskOps.kleene_or left right left_mask right_mask
        = MaskOps.kleene_or right left right_mask left_mask ∧
    MaskOps.kleene_and left right left_mask right_mask
        = MaskOps.kleene_and right left right_mask left_mask ∧
    MaskOps.kleene_xor left right left_mask right_mask
        = MaskOps.kleene_xor right left right_mask left_mask :=
  ⟨MaskOps.kleene_or_comm left right left_mask right_mask hnn hl hr,
   MaskOps.kleene_and_comm left right left_mask right_mask hnn hl hr,
   MaskOps.kleene_xor_comm left right left_mask right_mask hnn hl hr⟩

theorem kleene_ops_commutative_witness :
    MaskOps.kleene_or (.arr [true, false]) .na (some [false, true]) none
        = MaskOps.kleene_or .na (.arr [true, false]) none (some [false, true]) ∧
    MaskOps.kleene_and (.arr [true, false]) .na (some [false, true]) none
        = MaskOps.kleene_and .na (.arr [true, false]) none (some [false, true]) ∧
    MaskOps.kleene_xor (.arr [true, false]) .na (some [false, true]) none
        = MaskOps.kleene_xor .na (.arr [true, false]) none (some [false, true]) :=
  kleene_ops_commutative (.arr [true, false]) .na (some [false, true]) none
    (by simp)
    (fun lm _ => ⟨[true, false], rfl⟩)
    (fun rm h => by cases h)

/-- C8: legacy block-class shim — attribute access on `pandas.core.internals`
for each of the deprecated names (`Block`, `NumericBlock`, `ObjectBlock`,
`ExtensionBlock`, `DatetimeTZBlock`, `create_block_manager_from_blocks`)
emits a DeprecationWarning and returns the corresponding legacy object, and
attribute access for any other name not defined by the module raises
AttributeError. -/
theorem internals_legacy_shim :
    (∀ pr ∈ Internals.deprecatedNames,
      Internals.module_getattr pr.1 = .ok true pr.2) ∧
    (∀ name : String, Internals.moduleBindings.lookup name = none →
      name ∉ Internals.deprecatedNames.map Prod.fst →
      Internals.module_getattr name
        = .attributeError
            ("module pandas.core.internals has no attribute " ++ name)) := by
  constructor
  · decide
  · intro name hlk hnm
    simp only [Internals.deprecatedNames, List.map_cons, List.map_nil,
      List.mem_cons, List.not_mem_nil, or_false, not_or] at hnm
    obtain ⟨h1, h2, h3, h4, h5, h6⟩ := hnm
    unfold Internals.module_getattr
    rw [hlk]
    unfold Internals.dunder_getattr
    rw [if_neg h1, if_neg (by simp [h2, h3, h4, h5, h6])]

theorem internals_legacy_shim_witness :
    Internals.module_getattr "Block"
      = .ok true "pandas.core.internals.blocks.Block" ∧
    Internals.module_getattr "NotAThing"
      = .attributeError
          ("module pandas.core.internals has no attribute " ++ "NotAThing") :=
  ⟨internals_legacy_shim.1 ("Block", "pandas.core.internals.blocks.Block")
      (by simp [Internals.deprecatedNames]),
   internals_legacy_shim.2 "NotAThing" (by decide) (by decide)⟩

/-- C2: copy-on-write safety — for a manager and its shallow copy
`(M1, M2) = copy_shallow M`, which alias the same underlying buffers and
carry the may-share-storage flag, every in-place-style setitem applied to
`M2` first performs the defensive deep copy (the store grows by exactly the
fresh buffer, no existing buffer rewritten), so no value observable through
`M1` changes; and symmetrically mutating `M1` changes nothing observable
through `M2`. -/
theorem cow_safety_shallow_copy {α : Type} (store : Mem.Store α) (m : Mem.Manager)
    (hvalid : ∀ b ∈ m.blocks, b.bufId < store.length)
    (m1 m2 : Mem.Manager) (hcopy : m.copy_shallow = (m1, m2))
    (pos : Nat) (vals : List α) :
    (∀ s' m2', Mem.setitem_inplace store m2 pos vals = .ok (s', m2') →
      (∃ buf, s' = store ++ [buf]) ∧
      ∀ c, Mem.Manager.get_column s' m1 c = Mem.Manager.get_column store m1 c) ∧
    (∀ s' m1', Mem.setitem_inplace store m1 pos vals = .ok (s', m1') →
      (∃ buf, s' = store ++ [buf]) ∧
      ∀ c, Mem.Manager.get_column s' m2 c = Mem.Manager.get_column store m2 c) := by
  unfold Mem.Manager.copy_shallow at hcopy
  injection hcopy with hm1 hm2
  subst hm1
  subst hm2
  have hshare : ∀ b ∈ (m.blocks.map (fun b => { b with mayShare := true })),
      b.mayShare = true := by
    intro b hb
    rcases List.mem_map.mp hb with ⟨b0, _, rfl⟩
    rfl
  have hvalid' : ∀ b ∈ (m.blocks.map (fun b => { b with mayShare := true })),
      b.bufId < store.length := by
    intro b hb
    rcases List.mem_map.mp hb with ⟨b0, hb0, rfl⟩
    exact hvalid b0 hb0
  constructor
  · intro s' m2' hset
    rcases Mem.setitem_inplace_shared hshare hset with ⟨buf, rfl⟩
    exact ⟨⟨buf, rfl⟩, fun c => Mem.get_column_append_store hvalid' c⟩
  · intro s' m1' hset
    rcases Mem.setitem_inplace_shared hshare hset with ⟨buf, rfl⟩
    exact ⟨⟨buf, rfl⟩, fun c => Mem.get_column_append_store hvalid' c⟩

theorem cow_safety_shallow_copy_witness :
    (∃ buf, exStore2 = exStore ++ [buf]) ∧
    Mem.Manager.get_column exStore2 exShared 0
      = Mem.Manager.get_column exStore exShared 0 := by
  have h := (cow_safety_shallow_copy exStore exMem (by decide) exShared exShared
    (by decide) 0 [9, 9]).1 exStore2 exShared2 (by decide)
  exact ⟨h.1, h.2 0⟩

/-- C7: insertion locality — a successful `insert(position, label, array)`
leaves every pre-existing buffer byte-identical in the store and no
existing block re-buffered (each keeps its `bufId`); the only change to
existing blocks is that placement integers `≥ position` are shifted up by
one, while the new array becomes a fresh one-column Block with placement
`{position}` and the column index gains the label at `position`. -/
theorem insert_locality_bytes {α : Type} {store store' : Mem.Store α}
    {m m' : Mem.Manager} {pos : Nat} {label : String} {d : Dtype} {arr : List α}
    (h : Mem.insert store m pos label d arr = .ok (store', m')) :
    (∀ id, id < store.length → store'[id]? = store[id]?) ∧
    m'.blocks.length = m.blocks.length + 1 ∧
    (∀ i, i < m.blocks.length →
      ∀ b, m.blocks[i]? = some b →
        m'.blocks[i]? = some { b with
          placement := b.placement.map (fun p => if pos ≤ p then p + 1 else p) }) ∧
    m'.blocks[m.blocks.length]?
      = some { dtype := d, bufId := store.length, mayShare := false,
               placement := [pos] } ∧
    m'.colIndex = m.colIndex.insertIdx pos label :=
  Mem.insert_locality h

theorem insert_locality_bytes_witness :
    (∀ id, id < exStore.length → exStore7[id]? = exStore[id]?) ∧
    exMem7.blocks.length = exMem.blocks.length + 1 ∧
    (∀ i, i < exMem.blocks.length →
      ∀ b, exMem.blocks[i]? = some b →
        exMem7.blocks[i]? = some { b with
          placement := b.placement.map (fun p => if 1 ≤ p then p + 1 else p) }) ∧
    exMem7.blocks[exMem.blocks.length]?
      = some { dtype := .int64, bufId := exStore.length, mayShare := false,
               placement := [1] } ∧
    exMem7.colIndex = exMem.colIndex.insertIdx 1 "b" :=
  insert_locality_bytes
    (show Mem.insert exStore exMem 1 "b" .int64 [7, 8] = .ok (exStore7, exMem7)
      by decide)
